import Mathlib

/-!
Verification of the expression-compilation core of the query construction
layer (`src/query-builder/QueryBuilder.ts`): property-path substitution,
WHERE/RETURNING compilation, the find-operator translator, identity-WHERE
compilation, and the parameter ledger.  TypeScript strings are modelled as
`String` (lists of characters), JavaScript objects as insertion-ordered
association lists, and fallible operations return `Except`.
-/

mutual

/-- Mirror of the JavaScript value universe flowing through the builder:
`nullV` is `null`, `undef` is `undefined` (what property access on a missing
key yields), `func` is a callable value, `op` wraps a `FindOperator`
descriptor, and `arr` is an array. -/
inductive Value where
  | nullV : Value
  | undef : Value
  | nat (n : Nat) : Value
  | str (s : String) : Value
  | arr (elems : List Value) : Value
  | func : Value
  | op (o : FindOp) : Value

/-- Mirror of `FindOperator` (closed variant set used by
`computeFindOperatorExpression`).  The `not` variant of the source carries an
optional child; it is split here into `notC` (with child) and `notN`
(without child, carrying the bound payload).  `raw` carries the optional
`getSql` renderer and the literal value. -/
inductive FindOp where
  | notC (child : FindOp) : FindOp
  | notN (value : Value) : FindOp
  | lessThan (value : Value) : FindOp
  | lessThanOrEqual (value : Value) : FindOp
  | moreThan (value : Value) : FindOp
  | moreThanOrEqual (value : Value) : FindOp
  | equal (value : Value) : FindOp
  | ilike (value : Value) : FindOp
  | like (value : Value) : FindOp
  | between (value : Value) : FindOp
  | inO (value : Value) : FindOp
  | anyO (value : Value) : FindOp
  | isNull : FindOp
  | raw (getSql : Option (String → String)) (value : Value) : FindOp

end

/-- Driver families distinguished by the translator (`ilike` branches on
Postgres/CockroachDB). -/
inductive DriverKind where
  | postgres
  | cockroach
  | sqlserver
  | oracle
  | other
deriving DecidableEq

/-- The dialect capability port: escaping and native placeholder creation
(`driver.escape`, `driver.createParameter`). -/
structure Driver where
  kind : DriverKind
  escapeFn : String → String
  createParameter : String → Nat → String

/-- JavaScript `array[i]` interpolated into a template literal: a missing
index prints as `undefined`. -/
def jsIndex (ps : List String) (i : Nat) : String :=
  match ps.get? i with
  | some s => s
  | none => "undefined"

/-- JavaScript `Array.prototype.join(sep)`: elements interleaved with the
separator. -/
def joinSep (sep : String) : List String → String
  | [] => ""
  | [x] => x
  | x :: rest => x ++ sep ++ joinSep sep rest

/-- Mirror of JavaScript string interpolation of a plain value (used by the
`raw` variant's `= ${operator.value}` branch). -/
def Value.jsString : Value → String
  | .nullV => "null"
  | .undef => "undefined"
  | .nat n => toString n
  | .str s => s
  | .func => "function"
  | .op _ => "[object Object]"
  | .arr l => jsStringList l
where
  /-- Array-to-string: elements joined by commas. -/
  jsStringList : List Value → String
  | [] => ""
  | [v] => Value.jsString v
  | v :: rest => Value.jsString v ++ "," ++ jsStringList rest

/-- Mirror of `QueryBuilder.computeFindOperatorExpression`: renders one
find-operator descriptor against a qualified column and the already-bound
placeholder strings. -/
def computeFindOperatorExpression (driver : Driver) :
    FindOp → String → List String → String
  | .notC child, aliasPath, parameters =>
      "NOT(" ++ computeFindOperatorExpression driver child aliasPath parameters ++ ")"
  | .notN _, aliasPath, parameters =>
      aliasPath ++ " != " ++ jsIndex parameters 0
  | .lessThan _, aliasPath, parameters =>
      aliasPath ++ " < " ++ jsIndex parameters 0
  | .lessThanOrEqual _, aliasPath, parameters =>
      aliasPath ++ " <= " ++ jsIndex parameters 0
  | .moreThan _, aliasPath, parameters =>
      aliasPath ++ " > " ++ jsIndex parameters 0
  | .moreThanOrEqual _, aliasPath, parameters =>
      aliasPath ++ " >= " ++ jsIndex parameters 0
  | .equal _, aliasPath, parameters =>
      aliasPath ++ " = " ++ jsIndex parameters 0
  | .ilike _, aliasPath, parameters =>
      if driver.kind = .postgres ∨ driver.kind = .cockroach then
        aliasPath ++ " ILIKE " ++ jsIndex parameters 0
      else
        "UPPER(" ++ aliasPath ++ ") LIKE UPPER(" ++ jsIndex parameters 0 ++ ")"
  | .like _, aliasPath, parameters =>
      aliasPath ++ " LIKE " ++ jsIndex parameters 0
  | .between _, aliasPath, parameters =>
      aliasPath ++ " BETWEEN " ++ jsIndex parameters 0 ++ " AND " ++ jsIndex parameters 1
  | .inO _, aliasPath, parameters =>
      if parameters.length = 0 then "0=1"
      else aliasPath ++ " IN (" ++ joinSep ", " parameters ++ ")"
  | .anyO _, aliasPath, parameters =>
      aliasPath ++ " = ANY(" ++ jsIndex parameters 0 ++ ")"
  | .isNull, aliasPath, _ =>
      aliasPath ++ " IS NULL"
  | .raw getSql value, aliasPath, _ =>
      match getSql with
      | some f => f aliasPath
      | none => aliasPath ++ " = " ++ value.jsString

/-- Join column of a relation (metadata port view): physical name plus the
referenced column's property path. -/
structure JoinColumn where
  databaseName : String
  referencedPropertyPath : String

/-- Relation metadata consumed by `replacePropertyNames`. -/
structure RelationMeta where
  propertyPath : String
  joinColumns : List JoinColumn
  inverseJoinColumns : List JoinColumn

/-- Column metadata: logical property name/path, physical database name, and
an optional value transformer. -/
structure Column where
  propertyName : String
  propertyPath : String
  databaseName : String
  transformer : Option (Value → Value) := none
  getValue : List (String × Value) → Bool → Value := fun _ _ => Value.undef
  colType : String := ""

/-- Modelled from the spec: the Metadata Port's extraction of a column's
bound value from a record (`ColumnMetadata.getEntityValue`, declared
outside this module) — navigation through possibly nested records is
supplied per column by the port, so it is carried as the column's
`getValue` field. -/
def Column.getEntityValue (c : Column) (obj : List (String × Value))
    (transform : Bool) : Value :=
  c.getValue obj transform

/-- Extraction function of an ordinary scalar column on the flat records
used throughout: looks the column's property path up in the record, a
missing key yielding `undefined`. -/
def lookupValue (path : String) (obj : List (String × Value)) (_ : Bool) :
    Value :=
  match obj.lookup path with
  | some v => v
  | none => Value.undef

/-- Child entity metadata used by the discriminator augmentation. -/
structure ChildMeta where
  discriminatorColumn : Option String := none
  discriminatorValue : Value := Value.nullV

/-- Entity metadata (the read-only Metadata Port view the compiler consumes).
`ensureEntityIdMap` is modelled from the spec: it normalizes one raw
identity value into an identity map (`EntityMetadata.ensureEntityIdMap`,
declared outside this module). -/
structure EntityMeta where
  tablePath : String := ""
  columns : List Column := []
  relations : List RelationMeta := []
  primaryColumns : List Column := []
  hasMultiplePrimaryKeys : Bool := false
  embeddeds : List String := []
  deleteDateColumn : Option Column := none
  discriminatorColumn : Option Column := none
  parentEntityMetadata : Bool := false
  discriminatorValue : Value := Value.nullV
  childEntityMetadatas : List ChildMeta := []
  ensureEntityIdMap : Value → List (String × Value) := fun _ => []

/-- An alias registered in the builder: a name plus optional entity
metadata. -/
structure AliasRec where
  name : String
  metadata : Option EntityMeta := none

/-- Mirror of `Alias.hasMetadata`. -/
def AliasRec.hasMetadata (a : AliasRec) : Bool := a.metadata.isSome

/-- Metadata of an alias; only meaningful when `hasMetadata`. -/
def AliasRec.meta (a : AliasRec) : EntityMeta :=
  match a.metadata with
  | some m => m
  | none => {}

/-- Connective of one stored where clause (`where.type`). -/
inductive WhereType where
  | simple
  | and
  | or
deriving DecidableEq

/-- One stored where clause of the expression map. -/
structure WhereClause where
  type : WhereType
  condition : String

/-- Statement kind (`expressionMap.queryType`). -/
inductive QueryType where
  | select
  | insert
  | update
  | delete
  | softDelete
  | restore
  | relation
deriving DecidableEq

/-- The portion of `QueryExpressionMap` state the compilation core reads and
writes, together with the connection driver. -/
structure QBState where
  driver : Driver
  parameters : List (String × Value) := []
  nativeParameters : List (String × Value) := []
  queryType : QueryType := .select
  mainAlias : Option AliasRec := none
  aliases : List AliasRec := []
  aliasNamePrefixingEnabled : Bool := true
  disableEscaping : Bool := true
  withDeleted : Bool := false
  wheres : List WhereClause := []
  extraAppendedAndWhereCondition : Option String := none
  comment : String := ""

/-- JavaScript object assignment `m[k] = v` on an insertion-ordered map:
overwrites in place when the key exists, appends otherwise. -/
def jsSet {β : Type} (m : List (String × β)) (k : String) (v : β) :
    List (String × β) :=
  if m.any (fun p => p.1 = k) then
    m.map (fun p => if p.1 = k then (k, v) else p)
  else m ++ [(k, v)]

/-- Mirror of `QueryBuilder.escape`: returns the name untouched unless
`disableEscaping` holds (the flag's polarity is inverted in the source). -/
def QBState.escape (st : QBState) (name : String) : String :=
  if !st.disableEscaping then name else st.driver.escapeFn name

/-- Errors surfaced by the compilation core. -/
inductive QBError where
  | entityColumnNotFound (propertyPath : String)
  | functionParameter (key : String)
  | mainAliasNotSet
deriving DecidableEq

/-- Mirror of `QueryBuilder.setParameter`: stores the value with no
validation whatsoever. -/
def setParameter (st : QBState) (key : String) (value : Value) : QBState :=
  { st with parameters := jsSet st.parameters key value }

/-- A builder together with its chain of enclosing (parent) builders, as
used by `setParameters` propagation in sub-query mode. -/
inductive Builder where
  | node (st : QBState) (parent : Option Builder)

/-- State of a builder node. -/
def Builder.st : Builder → QBState
  | .node st _ => st

/-- Parent of a builder node. -/
def Builder.parent : Builder → Option Builder
  | .node _ p => p

/-- Detects a callable value (`value instanceof Function`). -/
def Value.isFunc : Value → Bool
  | .func => true
  | _ => false

/-- Applies `setParameter` for every entry and recurses into the parent
chain, mirroring the un-validated part of `setParameters`. -/
def setParametersGo : Builder → List (String × Value) → Builder
  | .node st parent, ps =>
    let parent' := match parent with
      | some par => some (setParametersGo par ps)
      | none => none
    Builder.node (ps.foldl (fun acc p => setParameter acc p.1 p.2) st) parent'

/-- Mirror of `QueryBuilder.setParameters`: first scans all supplied entries
and fails on the first callable value, then propagates to the parent builder
and stores every entry.  (The source repeats the same value-only scan at
each level of the parent chain; with identical entries the outcome is the
same, so the scan is performed once here.) -/
def setParameters (b : Builder) (ps : List (String × Value)) :
    Except QBError Builder :=
  match ps.find? (fun p => p.2.isFunc) with
  | some kp => .error (.functionParameter kp.1)
  | none => .ok (setParametersGo b ps)

/-- Mirror of `QueryBuilder.setNativeParameters` (no validation). -/
def setNativeParameters : Builder → List (String × Value) → Builder
  | .node st parent, ps =>
    let parent' := match parent with
      | some par => some (setNativeParameters par ps)
      | none => none
    Builder.node
      { st with nativeParameters :=
          ps.foldl (fun acc p => jsSet acc p.1 p.2) st.nativeParameters }
      parent'

/-- Mirror of `QueryBuilder.getParameters`: copies the logical parameter
map and, when the main alias's entity participates in single-table
inheritance, adds the derived `discriminatorColumnValues` array to the
copy. -/
def getParameters (st : QBState) : List (String × Value) :=
  let parameters := st.parameters
  match st.mainAlias with
  | some a =>
    if a.hasMetadata then
      let metadata := a.meta
      match metadata.discriminatorColumn, metadata.parentEntityMetadata with
      | some _, true =>
        let values :=
          (metadata.childEntityMetadatas.filter
            (fun child => child.discriminatorColumn.isSome)).map
            (fun child => child.discriminatorValue)
          ++ [metadata.discriminatorValue]
        jsSet parameters "discriminatorColumnValues" (Value.arr values)
      | _, _ => parameters
    else parameters
  | none => parameters

/-- Replaces the first occurrence of `pat` in the list, JavaScript
`String.prototype.replace` with a string pattern: no occurrence leaves the
input unchanged, and the empty pattern matches at the start. -/
def replaceFirstAux (pat rep : List Char) : List Char → List Char
  | [] => if pat.isPrefixOf ([] : List Char) then rep else []
  | c :: rest =>
      if pat.isPrefixOf (c :: rest) then rep ++ (c :: rest).drop pat.length
      else c :: replaceFirstAux pat rep rest

/-- String wrapper for `replaceFirstAux`. -/
def jsReplaceFirst (s pat rep : String) : String :=
  ⟨replaceFirstAux pat.data rep.data s.data⟩

/-- Mirror of `QueryBuilder.createComment`: empty comment renders nothing;
otherwise the first comment-terminator occurrence is scrubbed and the text
is wrapped in a C-style comment block with a trailing space. -/
def createComment (st : QBState) : String :=
  if st.comment = "" then ""
  else "/* " ++ jsReplaceFirst st.comment "*/" "" ++ " */ "

/-- Left-boundary characters of the substitution regex (`[ =\(]`). -/
def isPre (c : Char) : Bool := c = ' ' || c = '=' || c = '('

/-- Right-boundary characters of the substitution lookahead (`[ =\)\,]`). -/
def isPost (c : Char) : Bool := c = ' ' || c = '=' || c = ')' || c = ','

/-- The lookahead `(?=[ =\)\,]|.{0}$)` under the `m` flag: end of input, a
right-boundary character, or an end-of-line position (before a newline). -/
def lookaheadOk : List Char → Bool
  | [] => true
  | c :: _ => isPost c || c = '\n'

/-- First table entry whose (prefixed) key matches at the start of `s` with a
valid lookahead — the regex alternation `(k1|k2|…)` tries keys in key
order and backtracks on a failed lookahead. -/
def matchAt (pfx : String) (tbl : List (String × String)) (s : List Char) :
    Option (String × String) :=
  tbl.find? fun kv =>
    List.isPrefixOf (pfx.data ++ kv.1.data) s &&
    lookaheadOk (s.drop (pfx.data ++ kv.1.data).length)

/-- Whether the last character of `l` is a newline (`dflt` when `l` is
empty); tracks whether the position after consuming `l` is a line start. -/
def lastIsNewline (l : List Char) (dflt : Bool) : Bool :=
  match l.getLast? with
  | some ch => ch = '\n'
  | none => dflt

/-- The global multiline replacement
`statement.replace(new RegExp("([ =\\(]|^.{0})" + pfx + "(keys)" + "(?=[ =\\)\\,]|.{0}$)", "gm"), (_, pre, p) => pre + rpfx + esc(tbl[p]))`
scanned left to right.  `ls` records whether the current position is a line
start (start of input or right after a newline), which is what `^` means
under the `m` flag.  At each position the engine first tries to consume one
left-boundary character, then falls back to the zero-width `^` alternative;
a successful match emits the captured boundary, the replacement prefix and
the escaped replacement value, and scanning resumes after the matched key
(the lookahead is not consumed).  A zero-width match (possible only when
both the alias prefix and a key are empty) advances one character, as
JavaScript does for empty matches. -/
def scan (pfx rpfx : String) (esc : String → String)
    (tbl : List (String × String)) (ls : Bool) (s : List Char) : List Char :=
  match s with
  | [] =>
    if ls then
      match matchAt pfx tbl [] with
      | some kv => rpfx.data ++ (esc kv.2).data
      | none => []
    else []
  | c :: rest =>
    match _h1 : if isPre c then matchAt pfx tbl rest else none with
    | some kv =>
        let matched := pfx.data ++ kv.1.data
        c :: (rpfx.data ++ (esc kv.2).data ++
          scan pfx rpfx esc tbl (lastIsNewline matched (c = '\n'))
            (rest.drop matched.length))
    | none =>
        match _h2 : if ls then matchAt pfx tbl (c :: rest) else none with
        | some kv =>
            let matched := pfx.data ++ kv.1.data
            if _h : (pfx.data ++ kv.1.data).length = 0 then
              rpfx.data ++ (esc kv.2).data ++
                (c :: scan pfx rpfx esc tbl (c = '\n') rest)
            else
              rpfx.data ++ (esc kv.2).data ++
                scan pfx rpfx esc tbl (lastIsNewline matched (c = '\n'))
                  ((c :: rest).drop matched.length)
        | none => c :: scan pfx rpfx esc tbl (c = '\n') rest
termination_by s.length
decreasing_by
  all_goals simp only [List.length_drop, List.length_cons]
  all_goals omega

/-- Builds one alias's replacement table, least to most relevant, later
phases overwriting earlier entries on key collision (JavaScript object
insertion/overwrite semantics): relation property path to first join
column, relation property path plus referenced column path, column
database name to itself, column property name, column property path. -/
def buildReplacements (m : EntityMeta) : List (String × String) :=
  let r1 := m.relations.foldl (fun acc rel =>
    match rel.joinColumns with
    | jc :: _ => jsSet acc rel.propertyPath jc.databaseName
    | [] => acc) []
  let r2 := m.relations.foldl (fun acc rel =>
    (rel.joinColumns ++ rel.inverseJoinColumns).foldl (fun acc jc =>
      jsSet acc (rel.propertyPath ++ "." ++ jc.referencedPropertyPath)
        jc.databaseName) acc) r1
  let r3 := m.columns.foldl (fun acc col =>
    jsSet acc col.databaseName col.databaseName) r2
  let r4 := m.columns.foldl (fun acc col =>
    jsSet acc col.propertyName col.databaseName) r3
  m.columns.foldl (fun acc col =>
    jsSet acc col.propertyPath col.databaseName) r4

/-- One alias's pass of `replacePropertyNames`: aliases without metadata are
skipped, an empty replacement table leaves the statement untouched, and
otherwise the global multiline substitution runs with the (escaped) alias
name prefix when prefixing is enabled. -/
def replaceAliasPass (st : QBState) (a : AliasRec) (statement : List Char) :
    List Char :=
  if !a.hasMetadata then statement
  else
    let replaceAliasNamePfx :=
      if st.aliasNamePrefixingEnabled then a.name ++ "." else ""
    let replacementAliasNamePfx :=
      if st.aliasNamePrefixingEnabled then st.escape a.name ++ "." else ""
    let replacements := buildReplacements a.meta
    if replacements.length ≠ 0 then
      scan replaceAliasNamePfx replacementAliasNamePfx st.escape replacements
        true statement
    else statement

/-- Mirror of `QueryBuilder.replacePropertyNames`: every registered alias is
processed in turn over the running statement. -/
def replacePropertyNames (st : QBState) (statement : String) : String :=
  ⟨st.aliases.foldl (fun stmt a => replaceAliasPass st a stmt) statement.data⟩

/-- JavaScript `String.prototype.trim`: whitespace stripped from both
ends. -/
def jsTrim (s : String) : String :=
  ⟨((s.data.dropWhile Char.isWhitespace).reverse.dropWhile
      Char.isWhitespace).reverse⟩

/-- Renders one stored where clause (`createWhereExpressionString`'s map
body): the leading connective is dropped for the first clause. -/
def renderWhereClause (st : QBState) (i : Nat) (w : WhereClause) : String :=
  match w.type with
  | .and => (if i > 0 then "AND " else "") ++ replacePropertyNames st w.condition
  | .or => (if i > 0 then "OR " else "") ++ replacePropertyNames st w.condition
  | .simple => replacePropertyNames st w.condition

/-- Mirror of `QueryBuilder.createWhereExpressionString`. -/
def createWhereExpressionString (st : QBState) : String :=
  joinSep " "
    (st.wheres.enum.map (fun p => renderWhereClause st p.1 p.2))

/-- The ordered condition groups `createWhereExpression` assembles: the
user-supplied where text (when non-blank), the soft-delete filter, the
discriminator filter, and the extra appended condition.  (The source reads
`mainAlias!` without a check; a missing main alias is treated as carrying
no metadata here, which no claim exercises.) -/
def whereConditionsArray (st : QBState) : List String :=
  let whereExpression := createWhereExpressionString st
  let base := if jsTrim whereExpression ≠ "" then [whereExpression] else []
  let base :=
    match st.mainAlias with
    | some a =>
      if a.hasMetadata then
        let metadata := a.meta
        let base :=
          if st.queryType = .select ∧ st.withDeleted = false then
            match metadata.deleteDateColumn with
            | some deleteDateColumn =>
              let column :=
                if st.aliasNamePrefixingEnabled then
                  a.name ++ "." ++ deleteDateColumn.propertyName
                else deleteDateColumn.propertyName
              base ++ [replacePropertyNames st column ++ " IS NULL"]
            | none => base
          else base
        match metadata.discriminatorColumn, metadata.parentEntityMetadata with
        | some discriminatorColumn, true =>
          let column :=
            if st.aliasNamePrefixingEnabled then
              a.name ++ "." ++ discriminatorColumn.databaseName
            else discriminatorColumn.databaseName
          base ++ [replacePropertyNames st column ++
            " IN (:...discriminatorColumnValues)"]
        | _, _ => base
      else base
    | none => base
  match st.extraAppendedAndWhereCondition with
  | some extra => base ++ [replacePropertyNames st extra]
  | none => base

/-- Mirror of `QueryBuilder.createWhereExpression`: zero groups render
nothing, one group renders ` WHERE g`, several render
` WHERE ( g1 ) AND ( g2 ) …`. -/
def createWhereExpression (st : QBState) : String :=
  let conditionsArray := whereConditionsArray st
  if conditionsArray.length = 0 then ""
  else if conditionsArray.length = 1 then
    " WHERE " ++ conditionsArray.headD ""
  else
    " WHERE ( " ++ joinSep " ) AND ( " conditionsArray ++ " )"

/-- Modelled from the spec: the payload-binding discipline of operator
descriptors (`FindOperator.useParameter`, declared outside this module).
The `isNull` descriptor needs no parameter and the unsafe `raw` variant
binds no parameter at all; `not` delegates to its child. -/
def FindOp.useParameter : FindOp → Bool
  | .notC child => child.useParameter
  | .isNull => false
  | .raw _ _ => false
  | _ => true

/-- Modelled from the spec: whether the descriptor's payload is a sequence
of separately bound scalars (`FindOperator.multipleParameters`, declared
outside this module).  `between` carries two scalar payloads bound
separately; `in` is bound as one parameter array; `not` delegates to its
child. -/
def FindOp.multipleParameters : FindOp → Bool
  | .notC child => child.multipleParameters
  | .between _ => true
  | _ => false

/-- Payload of a descriptor (`FindOperator.value`); `not` delegates to its
child. -/
def FindOp.payload : FindOp → Value
  | .notC child => child.payload
  | .notN v => v
  | .lessThan v => v
  | .lessThanOrEqual v => v
  | .moreThan v => v
  | .moreThanOrEqual v => v
  | .equal v => v
  | .ilike v => v
  | .like v => v
  | .between v => v
  | .inO v => v
  | .anyO v => v
  | .isNull => Value.nullV
  | .raw _ v => v

/-- View of a payload as the JavaScript array it must be when
`multipleParameters` holds. -/
def Value.asList : Value → List Value
  | .arr l => l
  | v => [v]

/-- Binds the payload values of one find-operator occurrence: one native
parameter per value, named `parameterName` with the running count appended
(no separating underscore), returning the placeholder list, the updated
native store and the advanced positional index. -/
def bindOperatorValues (driver : Driver) (parameterName : String)
    (parameterBaseCount : Nat) :
    List Value → Nat → List (String × Value) → Nat →
    List String × List (String × Value) × Nat
  | [], _, native, pIdx => ([], native, pIdx)
  | v :: vs, i, native, pIdx =>
      let nm := parameterName ++ toString (parameterBaseCount + i)
      let native' := jsSet native nm v
      let (ps, native'', pIdx') :=
        bindOperatorValues driver parameterName parameterBaseCount vs (i + 1)
          native' (pIdx + 1)
      (driver.createParameter nm ((pIdx + 1) - 1) :: ps, native'', pIdx')

/-- Compiles the per-column fragments of one property of one structured
record (metadata branch of `computeWhereParameter`): null sentinel emits
`IS NULL`, an operator descriptor binds its payload and delegates to the
translator, any other value binds one fresh native parameter and emits an
equality. -/
def compileColumnConditions (st : QBState) (aliasName : String)
    (whereObj : List (String × Value)) (propertyPath : String)
    (whereIndex propertyIndex : Nat) :
    List Column → Nat → List (String × Value) → Nat →
    List String × List (String × Value) × Nat
  | [], _, native, pIdx => ([], native, pIdx)
  | column :: cols, columnIndex, native, pIdx =>
      let aliasPath :=
        if st.aliasNamePrefixingEnabled then aliasName ++ "." ++ propertyPath
        else column.propertyPath
      let parameterValue := column.getEntityValue whereObj true
      let parameterName :=
        "where_" ++ toString whereIndex ++ "_" ++ toString propertyIndex ++
          "_" ++ toString columnIndex
      let parameterBaseCount :=
        (native.filter (fun p =>
          List.isPrefixOf parameterName.data p.1.data)).length
      let (frag, native', pIdx') :=
        match parameterValue with
        | .nullV => (aliasPath ++ " IS NULL", native, pIdx)
        | .op o =>
          let (parameters, native', pIdx') :=
            if o.useParameter then
              let realParameterValues :=
                if o.multipleParameters then o.payload.asList else [o.payload]
              bindOperatorValues st.driver parameterName parameterBaseCount
                realParameterValues 0 native pIdx
            else ([], native, pIdx)
          (computeFindOperatorExpression st.driver o aliasPath parameters,
            native', pIdx')
        | v =>
          let native' := jsSet native parameterName v
          (aliasPath ++ " = " ++
            st.driver.createParameter parameterName ((pIdx + 1) - 1),
            native', pIdx + 1)
      let (frags, native'', pIdx'') :=
        compileColumnConditions st aliasName whereObj propertyPath whereIndex
          propertyIndex cols (columnIndex + 1) native' pIdx'
      (frag :: frags, native'', pIdx'')

/-- Modelled from the spec: the Metadata Port's property-path flattening of
a structured record (`EntityMetadata.createPropertyPath`, declared outside
this module) — on the flat records modelled here it lists the record's
keys. -/
def createPropertyPath (obj : List (String × Value)) : List String :=
  obj.map Prod.fst

/-- Modelled from the spec: the Metadata Port's column resolution
(`EntityMetadata.findColumnsWithPropertyPath`, declared outside this
module): the columns whose property path equals the requested path. -/
def EntityMeta.findColumnsWithPropertyPath (m : EntityMeta) (path : String) :
    List Column :=
  m.columns.filter (fun c => c.propertyPath = path)

/-- Compiles the per-property texts of one structured record, failing when a
property path resolves to no column; empty column fragments are filtered
before joining with AND. -/
def compilePropertyConditions (st : QBState) (metadata : EntityMeta)
    (aliasName : String) (whereObj : List (String × Value))
    (whereIndex : Nat) :
    List String → Nat → List (String × Value) → Nat →
    Except QBError (List String × List (String × Value) × Nat)
  | [], _, native, pIdx => .ok ([], native, pIdx)
  | propertyPath :: paths, propertyIndex, native, pIdx =>
      let columns := metadata.findColumnsWithPropertyPath propertyPath
      if columns.length = 0 then .error (.entityColumnNotFound propertyPath)
      else
        let (frags, native', pIdx') :=
          compileColumnConditions st aliasName whereObj propertyPath
            whereIndex propertyIndex columns 0 native pIdx
        let text := joinSep " AND " (frags.filter (fun e => e ≠ ""))
        match compilePropertyConditions st metadata aliasName whereObj
            whereIndex paths (propertyIndex + 1) native' pIdx' with
        | .ok (texts, native'', pIdx'') => .ok (text :: texts, native'', pIdx'')
        | .error e => .error e

/-- Compiles the OR branches of a structured-record sequence against entity
metadata; per-property texts are filtered and joined with AND. -/
def compileWhereObjectsMeta (st : QBState) (metadata : EntityMeta)
    (aliasName : String) :
    List (List (String × Value)) → Nat → List (String × Value) → Nat →
    Except QBError (List String × List (String × Value) × Nat)
  | [], _, native, pIdx => .ok ([], native, pIdx)
  | whereObj :: rest, whereIndex, native, pIdx =>
      let propertyPaths := createPropertyPath whereObj
      match compilePropertyConditions st metadata aliasName whereObj
          whereIndex propertyPaths 0 native pIdx with
      | .error e => .error e
      | .ok (texts, native', pIdx') =>
        let branch :=
          joinSep " AND " (texts.filter (fun e => e ≠ ""))
        match compileWhereObjectsMeta st metadata aliasName rest
            (whereIndex + 1) native' pIdx' with
        | .ok (branches, native'', pIdx'') =>
            .ok (branch :: branches, native'', pIdx'')
        | .error e => .error e

/-- Compiles the key conditions of one structured record when the target
alias carries no entity metadata: keys are literal column names, only
equality and the null check exist.  The source's inner callback shadows the
outer positional counter with the key index and increments that shadowed
copy, so the positional argument handed to `createParameter` is just the
key index. -/
def compileRawKeyConditions (st : QBState) (aliasName : String)
    (whereIndex : Nat) :
    List (String × Value) → Nat → List (String × Value) →
    List String × List (String × Value)
  | [], _, native => ([], native)
  | (key, parameterValue) :: entries, keyIndex, native =>
      let aliasPath :=
        if st.aliasNamePrefixingEnabled then aliasName ++ "." ++ key else key
      let (frag, native') :=
        match parameterValue with
        | .nullV => (aliasPath ++ " IS NULL", native)
        | v =>
          let parameterName :=
            "where_" ++ toString whereIndex ++ "_" ++ toString keyIndex
          let native' := jsSet native parameterName v
          (aliasPath ++ " = " ++
            st.driver.createParameter parameterName ((keyIndex + 1) - 1),
            native')
      let (frags, native'') :=
        compileRawKeyConditions st aliasName whereIndex entries (keyIndex + 1)
          native'
      (frag :: frags, native'')

/-- Compiles the OR branches of a structured-record sequence without entity
metadata. -/
def compileWhereObjectsRaw (st : QBState) (aliasName : String) :
    List (List (String × Value)) → Nat → List (String × Value) →
    List String × List (String × Value)
  | [], _, native => ([], native)
  | whereObj :: rest, whereIndex, native =>
      let (frags, native') :=
        compileRawKeyConditions st aliasName whereIndex whereObj 0 native
      let (branches, native'') :=
        compileWhereObjectsRaw st aliasName rest (whereIndex + 1) native'
      (joinSep " AND " frags :: branches, native'')

/-- Assembles the OR branches: several branches are parenthesized and joined
with OR, zero or one branch is concatenated bare (`join("")`). -/
def joinOrBranches (andConditions : List String) : String :=
  if andConditions.length > 1 then
    joinSep " OR " (andConditions.map (fun w => "(" ++ w ++ ")"))
  else String.join andConditions

/-- Structured-object part of `computeWhereParameter` (a single record or an
ordered sequence of records), threading the native-parameter store. -/
def computeWhereObjects (st : QBState)
    (wheres : List (List (String × Value))) :
    Except QBError (String × QBState) :=
  match st.mainAlias with
  | none => .error .mainAliasNotSet
  | some a =>
    if a.hasMetadata then
      match compileWhereObjectsMeta st a.meta a.name wheres 0
          st.nativeParameters st.nativeParameters.length with
      | .error e => .error e
      | .ok (andConditions, native, _) =>
          .ok (joinOrBranches andConditions,
            { st with nativeParameters := native })
    else
      let (andConditions, native) :=
        compileWhereObjectsRaw st a.name wheres 0 st.nativeParameters
      .ok (joinOrBranches andConditions,
        { st with nativeParameters := native })

/-- The polymorphic condition input surface of `computeWhereParameter`.
The bracket variant carries the builder callback run against a nested
compiler; the function variant directly produces a string. -/
inductive WhereInput where
  | str (s : String)
  | brackets (whereFactory : QBState → QBState)
  | fn (f : QBState → String)
  | obj (o : List (String × Value))
  | objs (os : List (List (String × Value)))

/-- Mirror of `QueryBuilder.computeWhereParameter`: raw strings pass
through; a bracket spawns a nested compiler sharing the main alias, the
prefixing flag and the native store, renders its accumulated wheres in
parentheses and merges its logical parameters back; a callback produces a
string; records go through the structured compiler.  (The
`objectLiteralParameters` escape hatch of raw operators is not modelled; no
claim touches it.) -/
def computeWhereParameter (st : QBState) :
    WhereInput → Except QBError (String × QBState)
  | .str s => .ok (s, st)
  | .brackets whereFactory =>
    let child : QBState :=
      { driver := st.driver
        mainAlias := st.mainAlias
        aliasNamePrefixingEnabled := st.aliasNamePrefixingEnabled
        nativeParameters := st.nativeParameters }
    let child' := whereFactory child
    let whereString := createWhereExpressionString child'
    let merged : Except QBError QBState :=
      match setParameters
          (Builder.node { st with nativeParameters := child'.nativeParameters }
            none) (getParameters child') with
      | .ok b => .ok b.st
      | .error e => .error e
    match merged with
    | .ok st' =>
        .ok (if whereString ≠ "" then "(" ++ whereString ++ ")" else "", st')
    | .error e => .error e
  | .fn f => .ok (f st, st)
  | .obj o => computeWhereObjects st [o]
  | .objs os => computeWhereObjects st os

/-- One primary column's step of the identity compiler's general path:
appends the equality fragment and binds the native parameter
`id_<index>_<secondIndex>`, the second index being the running fragment
count. -/
def idWhereColumnStep (st : QBState) (aliasText : String) (index : Nat)
    (id : List (String × Value))
    (acc2 : List String × List (String × Value) × Nat)
    (primaryColumn : Column) :
    List String × List (String × Value) × Nat :=
  let (subs, native, parameterIndex) := acc2
  let secondIndex := subs.length
  let parameterName :=
    "id_" ++ toString index ++ "_" ++ toString secondIndex
  let sub := aliasText ++ st.escape primaryColumn.databaseName ++
    " = " ++ st.driver.createParameter parameterName parameterIndex
  (subs ++ [sub],
    jsSet native parameterName (primaryColumn.getEntityValue id true),
    parameterIndex + 1)

/-- One identity's step of the identity compiler's general path: compiles
every primary column against the identity map, the outer index being the
running group count. -/
def idWhereIdStep (st : QBState) (aliasText : String)
    (metadata : EntityMeta)
    (acc : List String × List (String × Value) × Nat)
    (id : List (String × Value)) :
    List String × List (String × Value) × Nat :=
  let (strs, native, parameterIndex) := acc
  let index := strs.length
  let (subStrings, native', parameterIndex') :=
    metadata.primaryColumns.foldl (idWhereColumnStep st aliasText index id)
      ([], native, parameterIndex)
  (strs ++ [joinSep " AND " subStrings], native', parameterIndex')

/-- Mirror of `QueryBuilder.createWhereIdsExpression`: normalizes the raw
identities, takes the single-key `In` fast path when the entity has no
composite key, no embeddeds and no transformer on its primary column, and
otherwise emits per-identity equality groups OR-combined. -/
def createWhereIdsExpression (st : QBState) (ids : Value) :
    Except QBError (String × QBState) :=
  match st.mainAlias with
  | none => .error .mainAliasNotSet
  | some a =>
    let metadata := a.meta
    let idList := match ids with | .arr l => l | v => [v]
    let normalized := idList.map metadata.ensureEntityIdMap
    let fastPathColumn :=
      if !metadata.hasMultiplePrimaryKeys ∧ metadata.embeddeds.length = 0 then
        match metadata.primaryColumns with
        | primaryColumn :: _ =>
          if primaryColumn.transformer.isNone then some primaryColumn else none
        | [] => none
      else none
    match fastPathColumn with
    | some primaryColumn =>
        computeWhereParameter st (.obj [(primaryColumn.propertyName,
          Value.op (FindOp.inO (Value.arr (normalized.map
            (fun id => primaryColumn.getEntityValue id false)))))])
    | none =>
      let aliasText :=
        if st.aliasNamePrefixingEnabled then st.escape a.name ++ "." else ""
      let (whereStrings, native, _) := normalized.foldl
        (idWhereIdStep st aliasText metadata)
        ([], st.nativeParameters, st.nativeParameters.length)
      let text :=
        if whereStrings.length > 1 then
          "(" ++ joinSep " OR "
            (whereStrings.map (fun w => "(" ++ w ++ ")")) ++ ")"
        else whereStrings.headD ""
      .ok (text, { st with nativeParameters := native })

/-- Key lookup on an insertion-ordered map (JavaScript property read). -/
def jsGet {β : Type} (m : List (String × β)) (k : String) : Option β :=
  (m.find? (fun p => p.1 = k)).map Prod.snd

/-- A fixed simple driver used by concrete witnesses: identity escaping and
colon-style named placeholders. -/
def drvFix : Driver :=
  { kind := .other
    escapeFn := fun n => n
    createParameter := fun n _ => ":" ++ n }

theorem jsGet_jsSet_same {β : Type} (m : List (String × β)) (k : String)
    (v : β) : jsGet (jsSet m k v) k = some v := by
  unfold jsSet jsGet
  by_cases hmem : m.any (fun p => p.1 = k)
  · simp only [hmem, if_true]
    induction m with
    | nil => simp at hmem
    | cons hd tl ih =>
      by_cases hk : hd.1 = k
      · simp [List.find?, hk]
      · simp only [List.any_cons] at hmem
        rcases Bool.or_eq_true_iff.mp hmem with h | h
        · exact absurd (of_decide_eq_true h) hk
        · simpa [List.find?, hk] using ih h
  · simp only [hmem, if_false]
    induction m with
    | nil => simp [List.find?]
    | cons hd tl ih =>
      simp only [List.any_cons, Bool.or_eq_true_iff, not_or] at hmem
      have hk : ¬ hd.1 = k := fun h => hmem.1 (decide_eq_true h)
      simpa [List.find?, hk] using ih hmem.2

theorem jsGet_map_overwrite {β : Type} (m : List (String × β))
    (k k' : String) (v : β) (h : k' ≠ k) :
    jsGet (m.map (fun p => if p.1 = k then (k, v) else p)) k' = jsGet m k' := by
  induction m with
  | nil => rfl
  | cons hd tl ih =>
    by_cases h3 : hd.1 = k'
    · have h1 : ¬ hd.1 = k := by rw [h3]; exact h
      unfold jsGet
      rw [List.map_cons, if_neg h1, List.find?_cons_of_pos _ (by simpa using h3),
        List.find?_cons_of_pos _ (by simpa using h3)]
    · unfold jsGet
      rw [List.map_cons]
      by_cases h1 : hd.1 = k
      · have hk3 : ¬ ((k, v) : String × β).1 = k' := by
          simpa using fun hh => h hh.symm
        rw [if_pos h1, List.find?_cons_of_neg _ (by simpa using hk3),
          List.find?_cons_of_neg _ (by simpa using h3)]
        exact ih
      · rw [if_neg h1, List.find?_cons_of_neg _ (by simpa using h3),
          List.find?_cons_of_neg _ (by simpa using h3)]
        exact ih

theorem jsGet_append_single_other {β : Type} (m : List (String × β))
    (k k' : String) (v : β) (h : k' ≠ k) :
    jsGet (m ++ [(k, v)]) k' = jsGet m k' := by
  induction m with
  | nil =>
    have h2 : ¬ ((k : String) = k') := fun hh => h hh.symm
    simp [jsGet, List.find?, h2]
  | cons hd tl ih =>
    by_cases h3 : hd.1 = k'
    · unfold jsGet
      rw [List.cons_append, List.find?_cons_of_pos _ (by simpa using h3),
        List.find?_cons_of_pos _ (by simpa using h3)]
    · unfold jsGet
      rw [List.cons_append, List.find?_cons_of_neg _ (by simpa using h3),
        List.find?_cons_of_neg _ (by simpa using h3)]
      exact ih

theorem jsGet_jsSet_other {β : Type} (m : List (String × β)) (k k' : String)
    (v : β) (h : k' ≠ k) : jsGet (jsSet m k v) k' = jsGet m k' := by
  unfold jsSet
  split
  · exact jsGet_map_overwrite m k k' v h
  · exact jsGet_append_single_other m k k' v h

theorem joinSep_cons_length (sep p : String) (rest : List String) :
    p.length ≤ (joinSep sep (p :: rest)).length := by
  cases rest with
  | nil => simp [joinSep]
  | cons q tl => simp [joinSep, String.length_append]; omega

theorem joinSep_ne_empty (sep : String) (ps : List String)
    (hne : ps ≠ []) (hall : ∀ p ∈ ps, p ≠ "") : joinSep sep ps ≠ "" := by
  cases ps with
  | nil => exact absurd rfl hne
  | cons p rest =>
    have hp : p ≠ "" := hall p (by simp)
    have hlen : 1 ≤ p.length := by
      cases hpd : p.data with
      | nil => exact absurd (String.ext (by rw [hpd])) hp
      | cons c cs =>
        show 1 ≤ p.data.length
        rw [hpd]
        simp
    intro hcon
    have hJ := joinSep_cons_length sep p rest
    rw [hcon] at hJ
    have hz : ("" : String).length = 0 := rfl
    omega

/-- C4: the `in` descriptor with zero bound placeholders renders the
tautological-false fragment `0=1`; with one or more placeholders it renders
the column followed by an `IN` list of the placeholders joined by commas;
with non-empty placeholders the invalid fragment `<column> IN ()` is never
produced. -/
theorem in_operator_rendering (driver : Driver) (v : Value) (c : String)
    (ps : List String) :
    (ps = [] → computeFindOperatorExpression driver (.inO v) c ps = "0=1") ∧
    (ps ≠ [] → computeFindOperatorExpression driver (.inO v) c ps =
        c ++ " IN (" ++ joinSep ", " ps ++ ")") ∧
    (ps ≠ [] → (∀ p ∈ ps, p ≠ "") →
      computeFindOperatorExpression driver (.inO v) c ps ≠ c ++ " IN ()") := by
  refine ⟨fun h => by subst h; rfl, fun h => ?_, fun h hall => ?_⟩
  · have : ¬ ps.length = 0 := by simpa [List.length_eq_zero] using h
    simp [computeFindOperatorExpression, this]
  · have hlen : ¬ ps.length = 0 := by simpa [List.length_eq_zero] using h
    simp only [computeFindOperatorExpression, hlen, if_false]
    intro hcon
    have hne := joinSep_ne_empty ", " ps h hall
    have hL := congrArg String.length hcon
    simp only [String.length_append] at hL
    have : (joinSep ", " ps).length = 0 := by
      have h1 : (" IN (" : String).length = 5 := rfl
      have h2 : (")" : String).length = 1 := rfl
      have h3 : (" IN ()" : String).length = 6 := rfl
      omega
    exact hne (String.ext (List.length_eq_zero.mp this))

/-- C5: the translator renders `not` with a child by recursing and wrapping
in `NOT(...)` for every descriptor, column and placeholder list; `not`
without a child renders inequality against the single bound placeholder;
in particular `not(between(..))` renders `NOT(c BETWEEN p0 AND p1)`. -/
theorem not_operator_composability (driver : Driver) (d : FindOp)
    (c : String) (ps : List String) (v : Value) (p0 a b : String) :
    computeFindOperatorExpression driver (.notC d) c ps =
      "NOT(" ++ computeFindOperatorExpression driver d c ps ++ ")" ∧
    computeFindOperatorExpression driver (.notN v) c [p0] =
      c ++ " != " ++ p0 ∧
    computeFindOperatorExpression driver (.notC (.between v)) c [a, b] =
      "NOT(" ++ (c ++ " BETWEEN " ++ a ++ " AND " ++ b) ++ ")" := by
  refine ⟨rfl, rfl, ?_⟩
  simp [computeFindOperatorExpression, jsIndex]

/-- Witness for the `in` rendering theorem at concrete inputs. -/
theorem in_operator_rendering_witness :
    computeFindOperatorExpression drvFix (.inO (Value.arr [])) "c" [] =
      "0=1" ∧
    computeFindOperatorExpression drvFix (.inO (Value.arr []))
      "c" [":a", ":b"] = "c" ++ " IN (" ++ joinSep ", " [":a", ":b"] ++ ")" :=
  ⟨(in_operator_rendering drvFix (Value.arr []) "c" []).1 rfl,
    (in_operator_rendering drvFix (Value.arr []) "c" [":a", ":b"]).2.1
      (by decide)⟩

theorem replaceFirstAux_not_found (pat rep : List Char) (hpat : pat ≠ [])
    (s : List Char) (h : ¬ pat <:+: s) : replaceFirstAux pat rep s = s := by
  induction s with
  | nil =>
    have : ¬ pat.isPrefixOf ([] : List Char) := by
      cases pat with
      | nil => exact absurd rfl hpat
      | cons c cs => simp [List.isPrefixOf]
    simp [replaceFirstAux, this]
  | cons c rest ih =>
    have hnp : ¬ pat.isPrefixOf (c :: rest) := by
      intro hc
      exact h ((List.isPrefixOf_iff_prefix.mp hc).isInfix)
    have hr : ¬ pat <:+: rest := fun hc => h (List.infix_cons hc)
    simp only [replaceFirstAux]
    rw [if_neg (by simpa using hnp), ih hr]

theorem replaceFirstAux_found (pat rep : List Char) (hpat : pat ≠ []) :
    ∀ u w, (∀ u' w', u ++ pat ++ w = u' ++ pat ++ w' → u.length ≤ u'.length) →
    replaceFirstAux pat rep (u ++ pat ++ w) = u ++ rep ++ w := by
  intro u
  induction u with
  | nil =>
    intro w _
    show replaceFirstAux pat rep (pat ++ w) = rep ++ w
    have hpre : pat.isPrefixOf (pat ++ w) :=
      List.isPrefixOf_iff_prefix.mpr ⟨w, rfl⟩
    cases hp : pat ++ w with
    | nil =>
      exact absurd (List.append_eq_nil.mp hp).1 hpat
    | cons c rest =>
      rw [hp] at hpre
      simp only [replaceFirstAux]
      rw [if_pos hpre, ← hp, List.drop_left]
  | cons c u' ih =>
    intro w hmin
    have hnp : ¬ pat.isPrefixOf ((c :: u') ++ pat ++ w) := by
      intro hc
      rcases List.isPrefixOf_iff_prefix.mp hc with ⟨t, ht⟩
      have := hmin [] t (by simpa using ht.symm)
      simp at this
    simp only [List.cons_append, replaceFirstAux]
    rw [if_neg (by simpa using hnp)]
    congr 1
    exact ih w (fun u'' w'' hw => by
      have := hmin (c :: u'') w'' (by simpa using congrArg (c :: ·) hw)
      simpa using this)

/-- C10: for a non-empty comment the renderer emits `/* `, then the comment
with only its first `*/` occurrence deleted, then ` */ `; a comment with no
terminator occurrence passes through unchanged inside the block. -/
theorem createComment_scrubs_first_terminator (st : QBState)
    (hne : st.comment ≠ "") :
    (¬ ("*/".data <:+: st.comment.data) →
        createComment st = "/* " ++ st.comment ++ " */ ") ∧
    (∀ u w, st.comment.data = u ++ "*/".data ++ w →
      (∀ u' w', st.comment.data = u' ++ "*/".data ++ w' →
        u.length ≤ u'.length) →
      (createComment st).data = "/* ".data ++ (u ++ w) ++ " */ ".data) := by
  constructor
  · intro hno
    unfold createComment jsReplaceFirst
    rw [if_neg hne]
    rw [replaceFirstAux_not_found _ _ (by decide) _ hno]
  · intro u w hdec hmin
    unfold createComment jsReplaceFirst
    rw [if_neg hne, hdec]
    rw [replaceFirstAux_found "*/".data "".data (by decide) u w
      (fun u' w' h => hmin u' w' (hdec.trans h))]
    simp [String.data_append]

/-- Witness: a comment holding two terminator occurrences loses only the
first — the rendered block still carries `*/` in its body. -/
theorem createComment_scrubs_first_terminator_witness :
    (createComment { driver := drvFix, comment := "a*/b*/c" }).data =
      "/* ab*/c */ ".data ∧ "*/".data <:+: "ab*/c".data := by
  constructor
  · have h := (createComment_scrubs_first_terminator
      { driver := drvFix, comment := "a*/b*/c" } (by decide)).2
      "a".data "b*/c".data (by decide) ?_
    · rw [h]; decide
    · intro u' w' hdec
      cases u' with
      | nil =>
        exfalso
        have hh := congrArg (fun l => l.head?) hdec
        simp at hh
      | cons x xs => simp
  · decide

/-- A minimal builder used by the parameter-ledger claims. -/
def builderFix : Builder := Builder.node { driver := drvFix } none

/-- C6 counterexample: `setParameter` raises nothing on a callable value —
the callable is silently stored in the ledger, while the claim asserts the
call fails with the reserved-function-value error. -/
theorem setParameter_accepts_callable :
    jsGet (setParameter builderFix.st "fn" Value.func).parameters "fn" =
      some Value.func := rfl

/-- C6 amended: `setParameters` fails with the reserved-function-value
error precisely when some supplied value is callable — rejected eagerly at
that call, before anything is stored — and succeeds otherwise, while
`setParameter` performs no validation at all and stores any value,
callable values included. -/
theorem setParameters_rejects_callables (b : Builder)
    (ps : List (String × Value)) (k : String) (v : Value) :
    ((∃ p ∈ ps, p.2.isFunc) →
      ∃ k', setParameters b ps = .error (.functionParameter k')) ∧
    ((∀ p ∈ ps, ¬ p.2.isFunc) →
      setParameters b ps = .ok (setParametersGo b ps)) ∧
    jsGet (setParameter b.st k v).parameters k = some v := by
  refine ⟨fun hex => ?_, fun hall => ?_, jsGet_jsSet_same b.st.parameters k v⟩
  · have hsome : (ps.find? (fun p => p.2.isFunc)).isSome := by
      rw [List.find?_isSome]
      obtain ⟨p, hp, hf⟩ := hex
      exact ⟨p, hp, hf⟩
    cases hfind : ps.find? (fun p => p.2.isFunc) with
    | none => rw [hfind] at hsome; simp at hsome
    | some kp => exact ⟨kp.1, by simp [setParameters, hfind]⟩
  · have hnone : ps.find? (fun p => p.2.isFunc) = none := by
      rw [List.find?_eq_none]
      intro p hp
      simpa using hall p hp
    simp [setParameters, hnone]

/-- Witness for the parameter-ledger theorem on concrete inputs. -/
theorem setParameters_rejects_callables_witness :
    setParameters builderFix [("a", Value.nat 1), ("f", Value.func)] =
      .error (.functionParameter "f") ∧
    setParameters builderFix [("a", Value.nat 1)] =
      .ok (setParametersGo builderFix [("a", Value.nat 1)]) ∧
    jsGet (setParameter builderFix.st "g" Value.func).parameters "g" =
      some Value.func := by
  refine ⟨rfl,
    (setParameters_rejects_callables builderFix [("a", Value.nat 1)] "g"
      Value.func).2.1 ?_,
    (setParameters_rejects_callables builderFix [] "g" Value.func).2.2⟩
  intro p hp
  simp at hp
  simp [hp, Value.isFunc]

/-- C9: when the main alias's entity declares single-table inheritance,
`getParameters` includes a derived `discriminatorColumnValues` array made
of the discriminator-bearing children's values followed by the entity's
own value — with no `setParameter` call — and every other key reads
exactly as in the stored ledger: the derived entry is a projection
computed on a copy, not a stored entry. -/
theorem getParameters_discriminator (st : QBState) (a : AliasRec)
    (m : EntityMeta) (dc : Column)
    (hma : st.mainAlias = some a) (hmeta : a.metadata = some m)
    (hdc : m.discriminatorColumn = some dc)
    (hp : m.parentEntityMetadata = true) :
    jsGet (getParameters st) "discriminatorColumnValues" =
      some (Value.arr ((m.childEntityMetadatas.filter
          (fun child => child.discriminatorColumn.isSome)).map
          (fun child => child.discriminatorValue) ++
          [m.discriminatorValue])) ∧
    (∀ k, k ≠ "discriminatorColumnValues" →
      jsGet (getParameters st) k = jsGet st.parameters k) := by
  have hmet : a.hasMetadata = true := by
    simp [AliasRec.hasMetadata, hmeta]
  have hm : a.meta = m := by simp [AliasRec.meta, hmeta]
  have hgp : getParameters st = jsSet st.parameters
      "discriminatorColumnValues"
      (Value.arr ((m.childEntityMetadatas.filter
          (fun child => child.discriminatorColumn.isSome)).map
          (fun child => child.discriminatorValue) ++
          [m.discriminatorValue])) := by
    unfold getParameters
    rw [hma]
    simp only [hmet, if_true, hm, hdc, hp]
  rw [hgp]
  exact ⟨jsGet_jsSet_same _ _ _,
    fun k hk => jsGet_jsSet_other _ _ _ _ hk⟩

/-- Single-table-inheritance fixture: a cat entity with dog and bird
siblings. -/
def metaSTI : EntityMeta :=
  { discriminatorColumn :=
      some { propertyName := "typ", propertyPath := "typ",
             databaseName := "typ" }
    parentEntityMetadata := true
    discriminatorValue := Value.str "cat"
    childEntityMetadatas :=
      [ { discriminatorColumn := some "typ",
          discriminatorValue := Value.str "dog" },
        { discriminatorColumn := some "typ",
          discriminatorValue := Value.str "bird" } ] }

/-- State whose main alias carries the single-table-inheritance fixture. -/
def stSTI : QBState :=
  { driver := drvFix
    mainAlias := some { name := "animal", metadata := some metaSTI } }

/-- Witness: own value `"cat"` and sibling values `"dog"`, `"bird"` all
appear in the derived array without any explicit `setParameter` call, and a
foreign key reads as in the (empty) stored ledger. -/
theorem getParameters_discriminator_witness :
    jsGet (getParameters stSTI) "discriminatorColumnValues" =
      some (Value.arr [Value.str "dog", Value.str "bird", Value.str "cat"]) ∧
    jsGet (getParameters stSTI) "other" = none := by
  have h := getParameters_discriminator stSTI
    { name := "animal", metadata := some metaSTI } metaSTI
    { propertyName := "typ", propertyPath := "typ", databaseName := "typ" }
    rfl rfl rfl rfl
  exact ⟨h.1.trans (by rfl), (h.2 "other" (by decide)).trans rfl⟩

theorem mem_data_infix_joinSep (sep : String) (l : List String) (x : String)
    (hx : x ∈ l) : x.data <:+: (joinSep sep l).data := by
  induction l with
  | nil => simp at hx
  | cons p rest ih =>
    rcases List.mem_cons.mp hx with h | h
    · subst h
      cases rest with
      | nil => exact List.infix_refl _
      | cons q tl =>
        refine ⟨[], (sep ++ joinSep sep (q :: tl)).data, ?_⟩
        simp [joinSep, String.data_append]
    · cases rest with
      | nil => simp at h
      | cons q tl =>
        obtain ⟨s, t, hst⟩ := ih h
        refine ⟨(p ++ sep).data ++ s, t, ?_⟩
        simp only [joinSep, String.data_append, List.append_assoc]
        rw [← hst]
        simp [List.append_assoc]

theorem mem_infix_createWhereExpression (st : QBState) (x : String)
    (hx : x ∈ whereConditionsArray st) :
    x.data <:+: (createWhereExpression st).data := by
  unfold createWhereExpression
  cases hl : whereConditionsArray st with
  | nil => rw [hl] at hx; simp at hx
  | cons y rest =>
    rw [hl] at hx
    cases rest with
    | nil =>
      have hxy : x = y := by simpa using hx
      subst hxy
      simp only [List.length_cons, List.length_nil]
      refine ⟨" WHERE ".data, [], ?_⟩
      simp [String.data_append]
    | cons z tl =>
      have hlen : ¬ (y :: z :: tl : List String).length = 0 := by simp
      have hlen1 : ¬ (y :: z :: tl : List String).length = 1 := by simp
      simp only [hlen, hlen1, if_false]
      obtain ⟨s, t, hst⟩ := mem_data_infix_joinSep " ) AND ( " (y :: z :: tl) x hx
      refine ⟨" WHERE ( ".data ++ s, t ++ " )".data, ?_⟩
      simp only [String.data_append, List.append_assoc]
      rw [← hst]
      simp [List.append_assoc]

/-- C8: for a select-type compilation without the include-deleted flag on an
entity declaring a delete-date column, the compiled WHERE always contains
the `<delete-date column> IS NULL` group — it is one of the conjoined
condition groups whether or not user conditions exist, and its text is
present in the rendered WHERE expression. -/
theorem select_conjoins_soft_delete_filter (st : QBState) (a : AliasRec)
    (m : EntityMeta) (ddc : Column)
    (hma : st.mainAlias = some a) (hmeta : a.metadata = some m)
    (hq : st.queryType = .select) (hwd : st.withDeleted = false)
    (hddc : m.deleteDateColumn = some ddc) :
    (replacePropertyNames st
        (if st.aliasNamePrefixingEnabled then
          a.name ++ "." ++ ddc.propertyName
        else ddc.propertyName) ++ " IS NULL") ∈ whereConditionsArray st ∧
    (replacePropertyNames st
        (if st.aliasNamePrefixingEnabled then
          a.name ++ "." ++ ddc.propertyName
        else ddc.propertyName) ++ " IS NULL").data <:+:
      (createWhereExpression st).data := by
  have hmet : a.hasMetadata = true := by
    simp [AliasRec.hasMetadata, hmeta]
  have hm : a.meta = m := by simp [AliasRec.meta, hmeta]
  have hmem : (replacePropertyNames st
      (if st.aliasNamePrefixingEnabled then
        a.name ++ "." ++ ddc.propertyName
      else ddc.propertyName) ++ " IS NULL") ∈ whereConditionsArray st := by
    unfold whereConditionsArray
    rw [hma]
    simp only [hmet, if_true, hm, hddc, hq, hwd]
    rcases m.discriminatorColumn with _ | dc2 <;>
      rcases m.parentEntityMetadata with _ | _ <;>
      rcases st.extraAppendedAndWhereCondition with _ | extra <;>
      simp [List.mem_append]
  exact ⟨hmem, mem_infix_createWhereExpression st _ hmem⟩

/-- Soft-delete fixture: an entity with a `deletedAt` delete-date column and
one user condition. -/
def metaSoft : EntityMeta :=
  { columns := [{ propertyName := "x", propertyPath := "x",
                  databaseName := "x" }]
    deleteDateColumn :=
      some { propertyName := "deletedAt", propertyPath := "deletedAt",
             databaseName := "deletedAt" } }

/-- Select-type state over the soft-delete fixture with one user where. -/
def stSoft : QBState :=
  { driver := drvFix
    aliasNamePrefixingEnabled := false
    mainAlias := some { name := "u", metadata := some metaSoft }
    wheres := [{ type := .simple, condition := "x = 1" }] }

/-- Witness: with one user condition the delete filter is still conjoined;
the rendered WHERE is ` WHERE ( x = 1 ) AND ( deletedAt IS NULL )`. -/
theorem select_conjoins_soft_delete_filter_witness :
    ("deletedAt IS NULL" : String) ∈ whereConditionsArray stSoft ∧
    ("deletedAt IS NULL" : String).data <:+:
      (createWhereExpression stSoft).data ∧
    createWhereExpression stSoft =
      " WHERE ( x = 1 ) AND ( deletedAt IS NULL )" := by
  have h := select_conjoins_soft_delete_filter stSoft
    { name := "u", metadata := some metaSoft } metaSoft
    { propertyName := "deletedAt", propertyPath := "deletedAt",
      databaseName := "deletedAt" } rfl rfl rfl rfl rfl
  exact ⟨h.1, h.2, by decide⟩

/-- Identity fixture: a single primary column that carries a value
transformer. -/
def pkColT : Column :=
  { propertyName := "id", propertyPath := "id", databaseName := "id"
    transformer := some (fun v => v)
    getValue := lookupValue "id" }

/-- Metadata of the transformer fixture. -/
def metaSlow : EntityMeta :=
  { columns := [pkColT]
    primaryColumns := [pkColT]
    ensureEntityIdMap := fun v => [("id", v)] }

/-- State over the transformer fixture, prefixing disabled. -/
def stSlow : QBState :=
  { driver := drvFix
    aliasNamePrefixingEnabled := false
    mainAlias := some { name := "user", metadata := some metaSlow } }

/-- C3 counterexample: an entity whose metadata has exactly one primary
column and no embedded identities, but whose primary column declares a
transformer, does not compile to an IN predicate: the identities [5,6,7]
produce a disjunction of three equality comparisons bound as three native
parameters, and the compiled text contains no `IN` at all. -/
theorem createWhereIds_no_fast_path_with_transformer :
    (createWhereIdsExpression stSlow
        (Value.arr [Value.nat 5, Value.nat 6, Value.nat 7])).toOption.map
        Prod.fst =
      some "((id = :id_0_0) OR (id = :id_1_0) OR (id = :id_2_0))" ∧
    ¬ ("IN".data <:+:
        "((id = :id_0_0) OR (id = :id_1_0) OR (id = :id_2_0))".data) ∧
    (createWhereIdsExpression stSlow
        (Value.arr [Value.nat 5, Value.nat 6, Value.nat 7])).toOption.map
        (fun r => r.2.nativeParameters.map Prod.fst) =
      some ["id_0_0", "id_1_0", "id_2_0"] := by
  refine ⟨rfl, by decide, rfl⟩

theorem string_append_ne_empty_right (x : String) (c : Char) (y : List Char) :
    x ++ ⟨c :: y⟩ ≠ "" := by
  intro h
  have := congrArg String.data h
  simp [String.data_append] at this

theorem append_paren_ne_empty (x : String) : x ++ ")" ≠ "" := by
  intro h
  have := congrArg String.data h
  simp [String.data_append] at this

theorem joinOrBranches_single (b : String) : joinOrBranches [b] = b := by
  unfold joinOrBranches
  simp only [List.length_cons, List.length_nil]
  rw [if_neg (by omega)]
  apply String.ext
  simp [String.join, String.data_append]

theorem compileColumnConditions_single_in (st : QBState) (nm : String)
    (pk : Column) (lst : List Value)
    (hval : pk.getValue [(pk.propertyName,
      Value.op (FindOp.inO (Value.arr lst)))] true =
      Value.op (FindOp.inO (Value.arr lst))) :
    compileColumnConditions st nm
      [(pk.propertyName, Value.op (FindOp.inO (Value.arr lst)))]
      pk.propertyName 0 0 [pk] 0 [] 0 =
      ([(if st.aliasNamePrefixingEnabled then nm ++ "." ++ pk.propertyName
          else pk.propertyPath) ++ " IN (" ++
          st.driver.createParameter "where_0_0_00" 0 ++ ")"],
        [("where_0_0_00", Value.arr lst)], 1) := by
  unfold compileColumnConditions
  simp only [Column.getEntityValue, hval]
  unfold compileColumnConditions
  simp only [FindOp.useParameter, FindOp.multipleParameters, FindOp.payload]
  unfold bindOperatorValues bindOperatorValues
  simp only [List.filter_nil, List.length_nil, if_true]
  rfl

theorem computeWhereObjects_single_in (st : QBState) (a : AliasRec)
    (m : EntityMeta) (pk : Column) (lst : List Value)
    (hma : st.mainAlias = some a) (hmeta : a.metadata = some m)
    (hcols : m.findColumnsWithPropertyPath pk.propertyName = [pk])
    (hval : pk.getValue [(pk.propertyName,
      Value.op (FindOp.inO (Value.arr lst)))] true =
      Value.op (FindOp.inO (Value.arr lst)))
    (hnative : st.nativeParameters = []) :
    computeWhereObjects st
      [[(pk.propertyName, Value.op (FindOp.inO (Value.arr lst)))]] =
      .ok ((if st.aliasNamePrefixingEnabled then
              a.name ++ "." ++ pk.propertyName
            else pk.propertyPath) ++ " IN (" ++
            st.driver.createParameter "where_0_0_00" 0 ++ ")",
        { st with nativeParameters := [("where_0_0_00", Value.arr lst)]
        }) := by
  have hmet : a.hasMetadata = true := by
    simp [AliasRec.hasMetadata, hmeta]
  have hm : a.meta = m := by simp [AliasRec.meta, hmeta]
  have hfrag := append_paren_ne_empty
    ((if st.aliasNamePrefixingEnabled then a.name ++ "." ++ pk.propertyName
      else pk.propertyPath) ++ " IN (" ++
      st.driver.createParameter "where_0_0_00" 0)
  unfold computeWhereObjects
  rw [hma]
  simp only [hmet, if_true, hm, hnative]
  unfold compileWhereObjectsMeta createPropertyPath
  simp only [List.map_cons, List.map_nil]
  unfold compilePropertyConditions
  rw [hcols]
  simp only [List.length_cons, List.length_nil]
  rw [compileColumnConditions_single_in st a.name pk lst hval]
  rw [if_neg (by omega)]
  unfold compilePropertyConditions compileWhereObjectsMeta
  simp only [List.filter_cons, List.filter_nil, decide_eq_true hfrag,
    if_true, joinSep]
  rw [joinOrBranches_single]

/-- C3 amended: the single-key fast path additionally requires the primary
column to carry no value transformer and the entity to declare no embedded
properties at all; under those conditions every identity list compiles to
one IN set-membership predicate over the primary column, bound as a single
array-valued native parameter holding every requested identity value. -/
theorem createWhereIdsExpression_fast_path (st : QBState) (a : AliasRec)
    (m : EntityMeta) (pk : Column) (ids : List Value)
    (hma : st.mainAlias = some a) (hmeta : a.metadata = some m)
    (hpk : m.primaryColumns = [pk]) (hmpk : m.hasMultiplePrimaryKeys = false)
    (hemb : m.embeddeds = []) (htr : pk.transformer = none)
    (hcols : m.findColumnsWithPropertyPath pk.propertyName = [pk])
    (hval : ∀ v, pk.getValue [(pk.propertyName, v)] true = v)
    (hnative : st.nativeParameters = [])
    (hids : ids ≠ []) :
    createWhereIdsExpression st (Value.arr ids) =
      .ok ((if st.aliasNamePrefixingEnabled then
              a.name ++ "." ++ pk.propertyName
            else pk.propertyPath) ++ " IN (" ++
            st.driver.createParameter "where_0_0_00" 0 ++ ")",
        { st with nativeParameters := [("where_0_0_00",
            Value.arr (ids.map (fun id =>
              pk.getEntityValue (m.ensureEntityIdMap id) false)))] }) := by
  unfold createWhereIdsExpression
  rw [hma]
  simp only [AliasRec.meta, hmeta, hmpk, hemb, hpk, htr, Option.isNone_none,
    Bool.not_false, List.length_nil, and_self, if_true]
  simp only [List.map_map, Function.comp]
  unfold computeWhereParameter
  have h := computeWhereObjects_single_in st a m pk
    (ids.map (fun id => pk.getEntityValue (m.ensureEntityIdMap id) false))
    hma hmeta hcols (hval _) hnative
  rw [hma] at h
  exact h

/-- Identity fixture without transformer (fast path applies). -/
def pkColF : Column :=
  { propertyName := "id", propertyPath := "id", databaseName := "id"
    getValue := lookupValue "id" }

/-- Metadata of the plain single-key fixture. -/
def metaFast : EntityMeta :=
  { columns := [pkColF]
    primaryColumns := [pkColF]
    ensureEntityIdMap := fun v => [("id", v)] }

/-- State over the plain single-key fixture, prefixing disabled. -/
def stFast : QBState :=
  { driver := drvFix
    aliasNamePrefixingEnabled := false
    mainAlias := some { name := "user", metadata := some metaFast } }

/-- Witness: identities [5,6,7] compile to one IN predicate whose single
native parameter holds the array [5,6,7]. -/
theorem createWhereIdsExpression_fast_path_witness :
    createWhereIdsExpression stFast
        (Value.arr [Value.nat 5, Value.nat 6, Value.nat 7]) =
      .ok ("id IN (:where_0_0_00)",
        { stFast with nativeParameters := [("where_0_0_00",
            Value.arr [Value.nat 5, Value.nat 6, Value.nat 7])] }) := by
  have h := createWhereIdsExpression_fast_path stFast
    { name := "user", metadata := some metaFast } metaFast pkColF
    [Value.nat 5, Value.nat 6, Value.nat 7] rfl rfl rfl rfl rfl rfl rfl
    (fun v => rfl) rfl (List.cons_ne_nil _ _)
  exact h.trans (by rfl)

/-- Characters that act as a boundary somewhere in the substitution regex:
left boundaries, lookahead boundaries, and the newline (which creates line
starts and line ends under the `m` flag). -/
def boundaryChar (c : Char) : Bool := isPre c || isPost c || c = '\n'

/-- A table-key occurrence inside `s` whose left context is a line start, a
left-boundary character or a newline, and whose right context satisfies the
lookahead. -/
def boundedOcc (tbl : List (String × String)) (ls : Bool)
    (s : List Char) : Prop :=
  ∃ u kv w, kv ∈ tbl ∧ s = u ++ kv.1.data ++ w ∧
    (match u.getLast? with
     | none => ls = true
     | some c => isPre c = true ∨ c = '\n') ∧
    lookaheadOk w = true

theorem matchAt_some (tbl : List (String × String)) (s : List Char)
    (kv : String × String) (h : matchAt "" tbl s = some kv) :
    kv ∈ tbl ∧ ∃ w, s = kv.1.data ++ w ∧ lookaheadOk w = true := by
  unfold matchAt at h
  refine ⟨List.mem_of_find?_eq_some h, ?_⟩
  have hp := List.find?_some h
  simp only [Bool.and_eq_true] at hp
  obtain ⟨hpre, hla⟩ := hp
  have hpre2 : kv.1.data <+: s := by simpa using hpre
  rcases hpre2 with ⟨w, hw⟩
  refine ⟨w, hw.symm, ?_⟩
  have : ("".data ++ kv.1.data).length = kv.1.data.length := by simp
  rw [this] at hla
  rw [← hw, List.drop_left] at hla
  exact hla

theorem matchAt_nil_none (tbl : List (String × String))
    (hkeys : ∀ kv ∈ tbl, kv.1.data ≠ []) :
    matchAt "" tbl [] = none := by
  unfold matchAt
  rw [List.find?_eq_none]
  intro kv hkv
  have := hkeys kv hkv
  cases hk : kv.1.data with
  | nil => exact absurd hk this
  | cons c cs =>
    simp [hk, List.isPrefixOf]

theorem scan_unchanged_aux (tbl : List (String × String))
    (rpfx : String) (esc : String → String)
    (hkeys : ∀ kv ∈ tbl, kv.1.data ≠ []) :
    ∀ n s ls, s.length ≤ n → ¬ boundedOcc tbl ls s →
      scan "" rpfx esc tbl ls s = s := by
  intro n
  induction n with
  | zero =>
    intro s ls hlen _
    have hs : s = [] := List.length_eq_zero.mp (Nat.le_zero.mp hlen)
    subst hs
    unfold scan
    rw [matchAt_nil_none tbl hkeys]
    cases ls <;> rfl
  | succ n ih =>
    intro s ls hlen hno
    cases s with
    | nil =>
      unfold scan
      rw [matchAt_nil_none tbl hkeys]
      cases ls <;> rfl
    | cons c rest =>
      unfold scan
      split
      · next kv heq =>
        exfalso
        have hsome : matchAt "" tbl rest = some kv := by
          by_cases hc : isPre c = true
          · rwa [if_pos hc] at heq
          · rw [if_neg hc] at heq; exact absurd heq (by simp)
        have hcpre : isPre c = true := by
          by_cases hc : isPre c = true
          · exact hc
          · rw [if_neg hc] at heq; exact absurd heq (by simp)
        obtain ⟨hmem, w, hw, hla⟩ := matchAt_some tbl rest kv hsome
        exact hno ⟨[c], kv, w, hmem, by simp [hw], by simp [hcpre], hla⟩
      · next heq1 =>
        split
        · next kv heq =>
          exfalso
          have hsome : matchAt "" tbl (c :: rest) = some kv := by
            by_cases hc : ls = true
            · rwa [if_pos hc] at heq
            · rw [if_neg hc] at heq; exact absurd heq (by simp)
          have hls : ls = true := by
            by_cases hc : ls = true
            · exact hc
            · rw [if_neg hc] at heq; exact absurd heq (by simp)
          obtain ⟨hmem, w, hw, hla⟩ := matchAt_some tbl (c :: rest) kv hsome
          exact hno ⟨[], kv, w, hmem, by simpa using hw, by simp [hls], hla⟩
        · next heq2 =>
          have hrest : ¬ boundedOcc tbl (c = '\n') rest := by
            rintro ⟨u, kv, w, hmem, hw, hbound, hla⟩
            refine hno ⟨c :: u, kv, w, hmem, by simp [hw], ?_, hla⟩
            cases u with
            | nil =>
              simp only [List.getLast?_nil] at hbound
              simp only [List.getLast?_singleton]
              right
              exact of_decide_eq_true hbound
            | cons x xs =>
              rw [List.getLast?_cons_cons]
              exact hbound
          rw [ih rest (c = '\n') (by simp at hlen; omega) hrest]

/-- Alias fixture: an entity mapping property `id` to database name `ID`. -/
def metaId : EntityMeta :=
  { columns := [{ propertyName := "id", propertyPath := "id",
                  databaseName := "ID" }] }

/-- Prefix-disabled state over the `id` fixture. -/
def stId : QBState :=
  { driver := drvFix
    aliasNamePrefixingEnabled := false
    aliases := [{ name := "u", metadata := some metaId }] }

/-- The replacement table the `id` fixture builds. -/
theorem buildReplacements_metaId :
    buildReplacements metaId = [("ID", "ID"), ("id", "ID")] := rfl

theorem scan_nil (pfx rpfx : String) (esc : String → String)
    (tbl : List (String × String)) (ls : Bool)
    (h : ls = true → matchAt pfx tbl [] = none) :
    scan pfx rpfx esc tbl ls [] = [] := by
  cases ls with
  | false =>
    conv_lhs => unfold scan
    simp
  | true =>
    conv_lhs => unfold scan
    rw [h rfl]
    simp

theorem scan_step_copy (pfx rpfx : String) (esc : String → String)
    (tbl : List (String × String)) (ls : Bool) (c : Char) (rest : List Char)
    (h1 : isPre c = true → matchAt pfx tbl rest = none)
    (h2 : ls = true → matchAt pfx tbl (c :: rest) = none) :
    scan pfx rpfx esc tbl ls (c :: rest) =
      c :: scan pfx rpfx esc tbl (c = '\n') rest := by
  conv_lhs => unfold scan
  split
  · next kv heq =>
    exfalso
    by_cases hc : isPre c = true
    · rw [if_pos hc, h1 hc] at heq
      exact absurd heq (by simp)
    · rw [if_neg hc] at heq
      exact absurd heq (by simp)
  · next =>
    split
    · next kv heq =>
      exfalso
      by_cases hl : ls = true
      · rw [if_pos hl, h2 hl] at heq
        exact absurd heq (by simp)
      · rw [if_neg hl] at heq
        exact absurd heq (by simp)
    · next => rfl

theorem scan_step_alt1 (pfx rpfx : String) (esc : String → String)
    (tbl : List (String × String)) (ls : Bool) (c : Char) (rest : List Char)
    (kv : String × String)
    (hc : isPre c = true) (hm : matchAt pfx tbl rest = some kv) :
    scan pfx rpfx esc tbl ls (c :: rest) =
      c :: (rpfx.data ++ (esc kv.2).data ++
        scan pfx rpfx esc tbl
          (lastIsNewline (pfx.data ++ kv.1.data) (c = '\n'))
          (rest.drop (pfx.data ++ kv.1.data).length)) := by
  conv_lhs => unfold scan
  split
  · next kv' heq =>
    rw [if_pos hc, hm] at heq
    have hk : kv = kv' := by injection heq
    subst hk
    rfl
  · next heq =>
    rw [if_pos hc, hm] at heq
    exact absurd heq (by simp)

theorem scan_step_alt2 (pfx rpfx : String) (esc : String → String)
    (tbl : List (String × String)) (c : Char) (rest : List Char)
    (kv : String × String)
    (hc : (if isPre c then matchAt pfx tbl rest else none) = none)
    (hm : matchAt pfx tbl (c :: rest) = some kv)
    (hlen : (pfx.data ++ kv.1.data).length ≠ 0) :
    scan pfx rpfx esc tbl true (c :: rest) =
      rpfx.data ++ (esc kv.2).data ++
        scan pfx rpfx esc tbl
          (lastIsNewline (pfx.data ++ kv.1.data) (c = '\n'))
          ((c :: rest).drop (pfx.data ++ kv.1.data).length) := by
  conv_lhs => unfold scan
  split
  · next kv' heq =>
    rw [hc] at heq
    exact absurd heq (by simp)
  · next =>
    split
    · next kv' heq =>
      rw [if_pos rfl, hm] at heq
      have hk : kv = kv' := by injection heq
      subst hk
      rw [dif_neg hlen]
    · next heq =>
      rw [if_pos rfl, hm] at heq
      exact absurd heq (by simp)

/-- Decidable scan for the absence of boundaried key occurrences: walks the
statement tracking whether the current position's left context licenses a
match. -/
def noBOcc (tbl : List (String × String)) : Bool → List Char → Bool
  | lic, [] => !(lic && (matchAt "" tbl []).isSome)
  | lic, c :: rest =>
      (!(lic && (matchAt "" tbl (c :: rest)).isSome)) &&
      noBOcc tbl (isPre c || c = '\n') rest

theorem matchAt_isSome_of_occ (tbl : List (String × String)) (s : List Char)
    (kv : String × String) (hmem : kv ∈ tbl) (w : List Char)
    (hw : s = kv.1.data ++ w) (hla : lookaheadOk w = true) :
    (matchAt "" tbl s).isSome = true := by
  unfold matchAt
  rw [List.find?_isSome]
  refine ⟨kv, hmem, ?_⟩
  rw [Bool.and_eq_true]
  constructor
  · simp [hw, List.isPrefixOf_iff_prefix]
  · have : ("".data ++ kv.1.data).length = kv.1.data.length := by simp
    rw [this, hw, List.drop_left]
    exact hla

theorem noBOcc_correct (tbl : List (String × String)) :
    ∀ s lic, noBOcc tbl lic s = true → ¬ boundedOcc tbl lic s := by
  intro s
  induction s with
  | nil =>
    intro lic h
    rintro ⟨u, kv, w, hmem, hw, hb, hla⟩
    have hu : u = [] := by
      cases u with
      | nil => rfl
      | cons x xs => simp at hw
    subst hu
    have hkey : kv.1.data = [] := by
      cases hk : kv.1.data with
      | nil => rfl
      | cons y ys => rw [hk] at hw; simp at hw
    simp only [List.getLast?_nil] at hb
    unfold noBOcc at h
    rw [hb] at h
    have := matchAt_isSome_of_occ tbl [] kv hmem w (by simpa using hw) hla
    rw [this] at h
    simp at h
  | cons c rest ih =>
    intro lic h
    unfold noBOcc at h
    rw [Bool.and_eq_true] at h
    obtain ⟨hhd, htl⟩ := h
    rintro ⟨u, kv, w, hmem, hw, hb, hla⟩
    cases u with
    | nil =>
      simp only [List.getLast?_nil] at hb
      rw [hb] at hhd
      have := matchAt_isSome_of_occ tbl (c :: rest) kv hmem w
        (by simpa using hw) hla
      rw [this] at hhd
      simp at hhd
    | cons x xs =>
      have hx : x = c := by
        have hh := congrArg (fun l => l.head?) hw
        simpa using hh.symm
      have hw' : rest = xs ++ kv.1.data ++ w := by
        have hh := congrArg List.tail hw
        simpa using hh
      refine ih (isPre c || c = '\n') htl ⟨xs, kv, w, hmem, hw', ?_, hla⟩
      cases xs with
      | nil =>
        simp only [List.getLast?_nil]
        simp only [List.getLast?_singleton] at hb
        rw [hx] at hb
        rcases hb with hb | hb
        · simp [hb]
        · simp [hb]
      | cons y ys =>
        rw [List.getLast?_cons_cons] at hb
        exact hb

theorem replacePropertyNames_unchanged (st : QBState) (a : AliasRec)
    (m : EntityMeta) (s : String)
    (hal : st.aliases = [a]) (hmeta : a.metadata = some m)
    (hpfx : st.aliasNamePrefixingEnabled = false)
    (hkeys : ∀ kv ∈ buildReplacements m, kv.1.data ≠ [])
    (hno : ¬ boundedOcc (buildReplacements m) true s.data) :
    replacePropertyNames st s = s := by
  have hmet : a.hasMetadata = true := by simp [AliasRec.hasMetadata, hmeta]
  have hm : a.meta = m := by simp [AliasRec.meta, hmeta]
  unfold replacePropertyNames
  rw [hal]
  simp only [List.foldl_cons, List.foldl_nil]
  unfold replaceAliasPass
  rw [hmet, hpfx, hm]
  simp only [Bool.not_true, Bool.false_eq_true, if_false]
  split
  · rw [scan_unchanged_aux (buildReplacements m) "" st.escape hkeys
      s.data.length s.data true le_rfl hno]
  · rfl

/-- C2 amended: substitution happens only at boundaried occurrences, but
under the regex's multiline flag the boundary sets include line boundaries:
a key is replaced only when preceded by a space, `=`, `(`, the start of the
string or the start of a line (right after a newline), and followed by a
space, `=`, `)`, `,`, the end of the string or the end of a line (right
before a newline).  When a statement has no key occurrence with such
boundaries, a single-alias prefix-disabled pass returns it unchanged; in
particular `middleName = :x` is unchanged when the alias's entity has a
property named `id`. -/
theorem replacePropertyNames_whole_token (st : QBState) (a : AliasRec)
    (m : EntityMeta) (s : String)
    (hal : st.aliases = [a]) (hmeta : a.metadata = some m)
    (hpfx : st.aliasNamePrefixingEnabled = false)
    (hkeys : ∀ kv ∈ buildReplacements m, kv.1.data ≠ [])
    (hno : ¬ boundedOcc (buildReplacements m) true s.data) :
    replacePropertyNames st s = s ∧
    replacePropertyNames stId "middleName = :x" = "middleName = :x" :=
  ⟨replacePropertyNames_unchanged st a m s hal hmeta hpfx hkeys hno,
   replacePropertyNames_unchanged stId
     { name := "u", metadata := some metaId } metaId "middleName = :x"
     rfl rfl rfl (by decide) (noBOcc_correct _ _ _ (by decide))⟩

/-- Witness for the whole-token theorem at a concrete statement without
boundaried key occurrences. -/
theorem replacePropertyNames_whole_token_witness :
    replacePropertyNames stId "foo = :y" = "foo = :y" ∧
    replacePropertyNames stId "middleName = :x" = "middleName = :x" :=
  replacePropertyNames_whole_token stId
    { name := "u", metadata := some metaId } metaId "foo = :y"
    rfl rfl rfl (by decide) (noBOcc_correct _ _ _ (by decide))

/-- C2 counterexample: under the multiline flag a line start licenses
substitution — `"x\nid"` is rewritten to `"x\nID"` although its only `id`
occurrence (at index 2 of 5 positions) is neither at the start of the
string nor preceded by a space, `=` or `(` (the preceding character is a
newline). -/
theorem replacePropertyNames_substitutes_at_line_start :
    replacePropertyNames stId "x\nid" = "x\nID" ∧
    (List.range 5).filter
      (fun i => "id".data.isPrefixOf ("x\nid".data.drop i)) = [2] ∧
    "x\nid".data.get? 1 = some '\n' ∧
    isPre '\n' = false := by
  refine ⟨?_, by decide, by decide, by decide⟩
  have step0 : replacePropertyNames stId "x\nid" =
      ⟨scan "" "" stId.escape [("ID", "ID"), ("id", "ID")] true
        ['x', '\n', 'i', 'd']⟩ := rfl
  rw [step0]
  apply String.ext
  show scan "" "" stId.escape [("ID", "ID"), ("id", "ID")] true
    ['x', '\n', 'i', 'd'] = "x\nID".data
  rw [scan_step_copy _ _ _ _ _ _ _ (fun h => absurd h (by decide))
    (fun _ => by decide)]
  rw [scan_step_copy _ _ _ _ _ _ _ (fun h => absurd h (by decide))
    (fun h => absurd h (by decide))]
  rw [show (decide ('\n' = '\n')) = true from rfl]
  rw [scan_step_alt2 _ _ _ _ _ _ ("id", "ID") (by decide) (by decide)
    (by decide)]
  rw [show (List.drop ("".data ++ (("id", "ID") :
    String × String).1.data).length ['i', 'd']) = ([] : List Char)
    from rfl]
  rw [show lastIsNewline ("".data ++ (("id", "ID") :
    String × String).1.data) (decide ('i' = '\n')) = false from rfl]
  rw [scan_nil _ _ _ _ _ (fun h => absurd h (by decide))]
  decide

/-- Substitution pass with empty alias prefixes and identity escaping — the
configuration of a prefix-disabled, escape-neutral builder. -/
def scanId (tbl : List (String × String)) : Bool → List Char → List Char :=
  scan "" "" (fun x => x) tbl

/-- A table key that is non-empty and free of boundary characters and
newlines. -/
def goodStr (k : String) : Prop :=
  k.data ≠ [] ∧ ∀ c ∈ k.data, boundaryChar c = false

/-- A replacement table with good pairwise-distinct keys whose values are
themselves keys mapped to themselves. -/
def goodTable (tbl : List (String × String)) : Prop :=
  (∀ kv ∈ tbl, goodStr kv.1) ∧ (tbl.map Prod.fst).Nodup ∧
  ∀ kv ∈ tbl, (kv.2, kv.2) ∈ tbl

/-- A lookahead-valid prefix: the candidate is a prefix and the position
after it satisfies the lookahead. -/
def lvPrefix (w s : List Char) : Prop :=
  w <+: s ∧ lookaheadOk (s.drop w.length) = true

theorem matchAt_none_iff (tbl : List (String × String)) (s : List Char) :
    matchAt "" tbl s = none ↔ ∀ kv ∈ tbl, ¬ lvPrefix kv.1.data s := by
  unfold matchAt
  rw [List.find?_eq_none]
  constructor
  · intro h kv hkv hlv
    have hpre : ("".data ++ kv.1.data).isPrefixOf s = true := by
      simpa [List.isPrefixOf_iff_prefix] using hlv.1
    have hla : lookaheadOk (List.drop ("".data ++ kv.1.data).length s) =
        true := by
      have hl : ("".data ++ kv.1.data).length = kv.1.data.length := by simp
      rw [hl]
      exact hlv.2
    exact h kv hkv (by rw [Bool.and_eq_true]; exact ⟨hpre, hla⟩)
  · intro h kv hkv
    intro hc
    rw [Bool.and_eq_true] at hc
    refine h kv hkv ⟨?_, ?_⟩
    · have := hc.1
      simpa [List.isPrefixOf_iff_prefix] using this
    · have hl : ("".data ++ kv.1.data).length = kv.1.data.length := by simp
      rw [hl] at hc
      exact hc.2

theorem matchAt_head_bad (tbl : List (String × String))
    (hgood : ∀ kv ∈ tbl, goodStr kv.1) (c : Char)
    (hbad : boundaryChar c = true) (t : List Char) :
    matchAt "" tbl (c :: t) = none := by
  rw [matchAt_none_iff]
  intro kv hkv hlv
  obtain ⟨hne, hchars⟩ := hgood kv hkv
  cases hk : kv.1.data with
  | nil => exact hne hk
  | cons x xs =>
    rw [hk] at hlv
    have hx : x = c := by
      rcases hlv.1 with ⟨r, hr⟩
      have := congrArg (fun l => l.head?) hr
      simpa using this
    have := hchars x (by rw [hk]; simp)
    rw [hx, hbad] at this
    exact absurd this (by simp)

theorem lastIsNewline_good (k : List Char) (dflt : Bool)
    (hne : k ≠ []) (hchars : ∀ c ∈ k, boundaryChar c = false) :
    lastIsNewline k dflt = false := by
  unfold lastIsNewline
  cases hl : k.getLast? with
  | none => exact absurd (List.getLast?_eq_none_iff.mp hl) hne
  | some c =>
    have hmem : c ∈ k := by
      obtain ⟨hne2, h2⟩ := List.mem_getLast?_eq_getLast (by rw [hl]; rfl :
        c ∈ k.getLast?)
      rw [h2]
      exact List.getLast_mem hne2
    have := hchars c hmem
    unfold boundaryChar at this
    simp only [Bool.or_eq_false_iff] at this
    simpa using this.2

theorem scanId_false_cons (tbl : List (String × String)) (c : Char)
    (t : List Char) :
    ∃ r, scanId tbl false (c :: t) = c :: r := by
  unfold scanId scan
  split
  · next kv heq => exact ⟨_, rfl⟩
  · next =>
    split
    · next kv heq =>
      exfalso
      simp at heq
    · next => exact ⟨_, rfl⟩

theorem lookaheadOk_scanId_false (tbl : List (String × String))
    (w : List Char) (hw : lookaheadOk w = true) :
    lookaheadOk (scanId tbl false w) = true := by
  cases w with
  | nil =>
    have : scanId tbl false [] = [] := by
      unfold scanId
      exact scan_nil _ _ _ _ _ (fun h => by cases h)
    rw [this]
    rfl
  | cons c t =>
    obtain ⟨r, hr⟩ := scanId_false_cons tbl c t
    rw [hr]
    exact hw

theorem lvPrefix_scanId_reflect (tbl : List (String × String)) :
    ∀ n s, s.length ≤ n → ∀ w, (∀ c ∈ w, boundaryChar c = false) →
      lvPrefix w (scanId tbl false s) → lvPrefix w s := by
  intro n
  induction n with
  | zero =>
    intro s hlen w _ h
    have hs : s = [] := List.length_eq_zero.mp (Nat.le_zero.mp hlen)
    subst hs
    have hz : scanId tbl false [] = [] := by
      unfold scanId
      exact scan_nil _ _ _ _ _ (fun h => by cases h)
    rwa [hz] at h
  | succ n ih =>
    intro s hlen w hw h
    cases s with
    | nil =>
      have hz : scanId tbl false [] = [] := by
        unfold scanId
        exact scan_nil _ _ _ _ _ (fun h => by cases h)
      rwa [hz] at h
    | cons d t =>
      cases w with
      | nil =>
        obtain ⟨r, hr⟩ := scanId_false_cons tbl d t
        rw [hr] at h
        exact ⟨List.nil_prefix, h.2⟩
      | cons c w' =>
        have hcd : c = d := by
          rcases h.1 with ⟨rr, hrr⟩
          obtain ⟨r, hr⟩ := scanId_false_cons tbl d t
          rw [hr] at hrr
          have := congrArg (fun l => l.head?) hrr
          simpa using this
        subst hcd
        have hgc : boundaryChar c = false := hw c (by simp)
        by_cases hpre : isPre c = true
        · exfalso
          unfold boundaryChar at hgc
          rw [hpre] at hgc
          simp at hgc
        · have hcopy : scanId tbl false (c :: t) =
              c :: scanId tbl (c = '\n') t := by
            unfold scanId
            by_cases hm : matchAt "" tbl t = none
            · exact scan_step_copy _ _ _ _ _ _ _ (fun hx => hm)
                (fun hx => by cases hx)
            · exact scan_step_copy _ _ _ _ _ _ _
                (fun hx => absurd hx hpre) (fun hx => by cases hx)
          rw [hcopy] at h
          have hcn : (decide (c = '\n')) = false := by
            unfold boundaryChar at hgc
            simp only [Bool.or_eq_false_iff] at hgc
            simpa using hgc.2
          rw [hcn] at h
          have h' : lvPrefix w' (scanId tbl false t) := by
            refine ⟨?_, ?_⟩
            · rcases h.1 with ⟨rr, hrr⟩
              exact ⟨rr, by simpa using hrr⟩
            · have := h.2
              simpa [List.drop] using this
          have hrec := ih t (by simp at hlen; omega) w'
            (fun x hx => hw x (by simp [hx])) h'
          refine ⟨?_, ?_⟩
          · rcases hrec.1 with ⟨rr, hrr⟩
            exact ⟨rr, by simp [hrr]⟩
          · simpa [List.drop] using hrec.2

theorem matchAt_cons_scanId_none (tbl : List (String × String))
    (hgood : ∀ kv ∈ tbl, goodStr kv.1) (c : Char) (t : List Char)
    (h : matchAt "" tbl (c :: t) = none) :
    matchAt "" tbl (c :: scanId tbl (c = '\n') t) = none := by
  by_cases hb : boundaryChar c = true
  · exact matchAt_head_bad tbl hgood c hb _
  · have hgc : boundaryChar c = false := by simpa using hb
    have hcn : (decide (c = '\n')) = false := by
      unfold boundaryChar at hgc
      simp only [Bool.or_eq_false_iff] at hgc
      simpa using hgc.2
    rw [hcn]
    rw [matchAt_none_iff]
    intro kv hkv hlv
    obtain ⟨hne, hchars⟩ := hgood kv hkv
    cases hk : kv.1.data with
    | nil => exact hne hk
    | cons x k' =>
      rw [hk] at hlv
      have hx : x = c := by
        rcases hlv.1 with ⟨rr, hrr⟩
        have := congrArg (fun l => l.head?) hrr
        simpa using this
      subst hx
      have h2 : lvPrefix k' (scanId tbl false t) := by
        refine ⟨?_, ?_⟩
        · rcases hlv.1 with ⟨rr, hrr⟩
          exact ⟨rr, by simpa using hrr⟩
        · simpa [List.drop] using hlv.2
      have h3 := lvPrefix_scanId_reflect tbl t.length t le_rfl k'
        (fun y hy => hchars y (by rw [hk]; simp [hy])) h2
      rw [matchAt_none_iff] at h
      refine h kv hkv ?_
      rw [hk]
      refine ⟨?_, ?_⟩
      · rcases h3.1 with ⟨rr, hrr⟩
        exact ⟨rr, by simp [hrr]⟩
      · simpa [List.drop] using h3.2

theorem matchAt_scanId_none (tbl : List (String × String))
    (hgood : ∀ kv ∈ tbl, goodStr kv.1) (s : List Char) (ls : Bool)
    (h : matchAt "" tbl s = none) :
    matchAt "" tbl (scanId tbl ls s) = none := by
  cases s with
  | nil =>
    have hz : scanId tbl ls [] = [] := by
      unfold scanId
      refine scan_nil _ _ _ _ _ (fun _ => ?_)
      rw [matchAt_none_iff]
      intro kv hkv hlv
      obtain ⟨hne, _⟩ := hgood kv hkv
      rcases hlv.1 with ⟨rr, hrr⟩
      exact hne (by simpa using (List.append_eq_nil.mp hrr).1)
    rwa [hz]
  | cons d t =>
    by_cases hpre : isPre d = true
    · cases hm : matchAt "" tbl t with
      | some kv =>
        have hstep : scanId tbl ls (d :: t) =
            d :: ("".data ++ kv.2.data ++
              scanId tbl (lastIsNewline ("".data ++ kv.1.data)
                (d = '\n')) (t.drop ("".data ++ kv.1.data).length)) := by
          unfold scanId
          exact scan_step_alt1 _ _ _ _ _ _ _ _ hpre hm
        rw [hstep]
        refine matchAt_head_bad tbl hgood d ?_ _
        unfold boundaryChar
        rw [hpre]
        rfl
      | none =>
        have hstep : scanId tbl ls (d :: t) =
            d :: scanId tbl (d = '\n') t := by
          unfold scanId
          exact scan_step_copy _ _ _ _ _ _ _ (fun _ => hm) (fun _ => h)
        rw [hstep]
        exact matchAt_cons_scanId_none tbl hgood d t h
    · have hstep : scanId tbl ls (d :: t) =
          d :: scanId tbl (d = '\n') t := by
        unfold scanId
        exact scan_step_copy _ _ _ _ _ _ _ (fun hx => absurd hx hpre)
          (fun _ => h)
      rw [hstep]
      exact matchAt_cons_scanId_none tbl hgood d t h

theorem find?_eq_of_unique {α : Type} (p : α → Bool) (l : List α) (a : α)
    (hmem : a ∈ l) (hp : p a = true)
    (huniq : ∀ b ∈ l, p b = true → b = a) :
    l.find? p = some a := by
  induction l with
  | nil => simp at hmem
  | cons hd tl ih =>
    by_cases hph : p hd = true
    · rw [List.find?_cons_of_pos _ hph, huniq hd (by simp) hph]
    · rw [List.find?_cons_of_neg _ (by simpa using hph)]
      have hmem' : a ∈ tl := by
        rcases List.mem_cons.mp hmem with hh | hh
        · exact absurd (hh ▸ hp) hph
        · exact hh
      exact ih hmem' (fun b hb hpb => huniq b (by simp [hb]) hpb)

theorem matchAt_value_head (tbl : List (String × String))
    (htbl : goodTable tbl) (v : String) (O : List Char)
    (hv : (v, v) ∈ tbl) (hla : lookaheadOk O = true) :
    matchAt "" tbl (v.data ++ O) = some (v, v) := by
  obtain ⟨hgood, hnodup, _⟩ := htbl
  obtain ⟨hvne, hvchars⟩ := hgood (v, v) hv
  unfold matchAt
  apply find?_eq_of_unique
  · exact hv
  · rw [Bool.and_eq_true]
    constructor
    · simp [List.isPrefixOf_iff_prefix]
    · have hl : ("".data ++ (v, v).1.data).length = v.data.length := by simp
      rw [hl, List.drop_left]
      exact hla
  · intro kv hkv hp
    rw [Bool.and_eq_true] at hp
    obtain ⟨hpre, hpla⟩ := hp
    have hpre2 : kv.1.data <+: v.data ++ O := by
      simpa [List.isPrefixOf_iff_prefix] using hpre
    have hvpre : v.data <+: v.data ++ O := ⟨O, rfl⟩
    have hl : ("".data ++ kv.1.data).length = kv.1.data.length := by simp
    rw [hl] at hpla
    rcases List.prefix_or_prefix_of_prefix hpre2 hvpre with hcase | hcase
    · rcases Nat.lt_or_ge kv.1.data.length v.data.length with hlt | hge
      · exfalso
        rcases hcase with ⟨rr, hrr⟩
        have hrne : rr ≠ [] := by
          intro hz
          rw [hz, List.append_nil] at hrr
          rw [← hrr] at hlt
          simp at hlt
        cases hrz : rr with
        | nil => exact hrne hrz
        | cons rc rrest =>
          have hdrop : (v.data ++ O).drop kv.1.data.length =
              rc :: (rrest ++ O) := by
            rw [← hrr, List.append_assoc, hrz]
            rw [List.drop_left]
            rfl
          rw [hdrop] at hpla
          have hmem : rc ∈ v.data := by
            rw [← hrr, hrz]
            simp
          have hbc := hvchars rc hmem
          unfold boundaryChar at hbc
          simp only [Bool.or_eq_false_iff] at hbc
          have hcontr : (isPost rc || decide (rc = '\n')) = true := by
            simpa [lookaheadOk] using hpla
          rw [hbc.1.2, hbc.2] at hcontr
          simp at hcontr
      · have heq : kv.1.data = v.data :=
          hcase.eq_of_length (Nat.le_antisymm hcase.length_le hge)
        have hkv1 : kv.1 = v := String.ext heq
        have := List.inj_on_of_nodup_map hnodup hkv hv
          (by simpa using hkv1)
        exact this
    · rcases hcase with ⟨e, he⟩
      cases hez : e with
      | nil =>
        rw [hez, List.append_nil] at he
        have hkv1 : kv.1 = v := String.ext he.symm
        exact List.inj_on_of_nodup_map hnodup hkv hv (by simpa using hkv1)
      | cons ec erest =>
        exfalso
        have hpre3 : v.data ++ (ec :: erest) <+: v.data ++ O := by
          rw [hez] at he
          rw [he]
          exact hpre2
        have hpree : (ec :: erest) <+: O :=
          (List.prefix_append_right_inj v.data).mp hpre3
        rcases hpree with ⟨oo, hoo⟩
        have hOla : (isPost ec || decide (ec = '\n')) = true := by
          have : lookaheadOk (ec :: (erest ++ oo)) = true := by
            rw [show ec :: (erest ++ oo) = (ec :: erest) ++ oo from rfl, hoo]
            exact hla
          simpa [lookaheadOk] using this
        have hmem : ec ∈ kv.1.data := by
          rw [hez] at he
          rw [← he]
          simp
        have hgk := (hgood kv hkv).2 ec hmem
        unfold boundaryChar at hgk
        simp only [Bool.or_eq_false_iff] at hgk
        rw [hgk.1.2, hgk.2] at hOla
        simp at hOla

theorem isPre_ne_newline (c : Char) (h : isPre c = true) :
    (decide (c = '\n')) = false := by
  unfold isPre at h
  simp only [Bool.or_eq_true, decide_eq_true_eq] at h
  rcases h with (h | h) | h <;> subst h <;> decide

theorem goodStr_ne_newline (c : Char) (h : boundaryChar c = false) :
    (decide (c = '\n')) = false := by
  unfold boundaryChar at h
  simp only [Bool.or_eq_false_iff] at h
  simpa using h.2

theorem scanId_no_empty_match (tbl : List (String × String))
    (hgood : ∀ kv ∈ tbl, goodStr kv.1) (ls : Bool) :
    scanId tbl ls [] = [] := by
  unfold scanId
  refine scan_nil _ _ _ _ _ (fun _ => ?_)
  rw [matchAt_none_iff]
  intro kv hkv hlv
  obtain ⟨hne, _⟩ := hgood kv hkv
  rcases hlv.1 with ⟨rr, hrr⟩
  exact hne (by simpa using (List.append_eq_nil.mp hrr).1)

theorem scanId_value_head_true (tbl : List (String × String))
    (htbl : goodTable tbl) (v : String) (Y : List Char)
    (hv : (v, v) ∈ tbl) (hYla : lookaheadOk Y = true) :
    scanId tbl true (v.data ++ Y) =
      v.data ++ scanId tbl false Y := by
  obtain ⟨hgood, hnodup, hself⟩ := htbl
  obtain ⟨hvne, hvchars⟩ := hgood (v, v) hv
  have hm2 : matchAt "" tbl (v.data ++ Y) = some (v, v) :=
    matchAt_value_head tbl ⟨hgood, hnodup, hself⟩ v Y hv hYla
  cases hvd : v.data with
  | nil => exact absurd hvd (by simpa using hvne)
  | cons v0 vrest =>
    have hv0 : isPre v0 = false := by
      have := hvchars v0 (by rw [hvd]; simp)
      unfold boundaryChar at this
      simp only [Bool.or_eq_false_iff] at this
      exact this.1.1
    have hshape : v.data ++ Y = v0 :: (vrest ++ Y) := by
      rw [hvd]
      rfl
    have hstep : scanId tbl true (v0 :: (vrest ++ Y)) =
        ("" : String).data ++ ((fun x => x) (v, v).2).data ++
          scanId tbl
            (lastIsNewline (("" : String).data ++ (v, v).1.data)
              (v0 = '\n'))
            ((v0 :: (vrest ++ Y)).drop
              (("" : String).data ++ (v, v).1.data).length) := by
      unfold scanId
      refine scan_step_alt2 _ _ _ _ _ _ _ ?_ ?_ ?_
      · simp [hv0]
      · rw [← hshape]
        exact hm2
      · simp [hvd]
    have hd0 : ("" : String).data = ([] : List Char) := rfl
    have hflag : lastIsNewline (("" : String).data ++ (v, v).1.data)
        (decide (v0 = '\n')) = false := by
      refine lastIsNewline_good _ _ ?_ ?_
      · simpa [hd0] using hvne
      · intro x hx
        exact hvchars x (by simpa [hd0] using hx)
    have hdrop : ((v0 :: (vrest ++ Y)).drop
        (("" : String).data ++ (v, v).1.data).length) = Y := by
      rw [hd0, List.nil_append]
      have hlv : (v, v).1.data.length = vrest.length + 1 := by
        rw [show ((v, v).1 : String) = v from rfl, hvd]
        simp
      rw [hlv]
      rw [show ((v0 :: (vrest ++ Y)).drop (vrest.length + 1)) =
        ((vrest ++ Y).drop vrest.length) from rfl]
      rw [List.drop_left]
    rw [show ((v0 :: vrest) ++ Y : List Char) = v0 :: (vrest ++ Y)
      from rfl]
    rw [hstep, hflag, hdrop, hd0]
    simp [hvd]

theorem scanId_idem_copy (tbl : List (String × String))
    (hgood : ∀ kv ∈ tbl, goodStr kv.1) (n : Nat) (c : Char)
    (t : List Char) (ls : Bool)
    (ih : ∀ s ls, s.length ≤ n →
      scanId tbl ls (scanId tbl ls s) = scanId tbl ls s)
    (htlen : t.length ≤ n)
    (h1 : isPre c = true → matchAt "" tbl t = none)
    (h2 : ls = true → matchAt "" tbl (c :: t) = none) :
    scanId tbl ls (scanId tbl ls (c :: t)) = scanId tbl ls (c :: t) := by
  have hstep : scanId tbl ls (c :: t) =
      c :: scanId tbl (c = '\n') t := by
    unfold scanId
    exact scan_step_copy _ _ _ _ _ _ _ h1 h2
  have h1' : isPre c = true →
      matchAt "" tbl (scanId tbl (decide (c = '\n')) t) = none :=
    fun hp => matchAt_scanId_none tbl hgood t _ (h1 hp)
  have h2' : ls = true →
      matchAt "" tbl (c :: scanId tbl (decide (c = '\n')) t) = none :=
    fun hl => matchAt_cons_scanId_none tbl hgood c t (h2 hl)
  have hstep2 : scanId tbl ls (c :: scanId tbl (decide (c = '\n')) t) =
      c :: scanId tbl (c = '\n') (scanId tbl (decide (c = '\n')) t) := by
    unfold scanId
    exact scan_step_copy _ _ _ _ _ _ _ h1' h2'
  rw [hstep, hstep2, ih t (decide (c = '\n')) htlen]

theorem scanId_idem_alt1 (tbl : List (String × String))
    (htbl : goodTable tbl) (n : Nat) (c : Char) (t : List Char) (ls : Bool)
    (ih : ∀ s ls, s.length ≤ n →
      scanId tbl ls (scanId tbl ls s) = scanId tbl ls s)
    (htlen : t.length ≤ n) (hpre : isPre c = true)
    (kv : String × String) (hm : matchAt "" tbl t = some kv) :
    scanId tbl ls (scanId tbl ls (c :: t)) = scanId tbl ls (c :: t) := by
  obtain ⟨hgood, hnodup, hself⟩ := htbl
  obtain ⟨hkvmem, w, hw, hwla⟩ := matchAt_some tbl t kv hm
  obtain ⟨hk1ne, hk1chars⟩ := hgood kv hkvmem
  have hvv : (kv.2, kv.2) ∈ tbl := hself kv hkvmem
  obtain ⟨hvne, hvchars⟩ := hgood (kv.2, kv.2) hvv
  have hraw1 : scanId tbl ls (c :: t) =
      c :: (("" : String).data ++ ((fun x => x) kv.2).data ++
        scanId tbl
          (lastIsNewline (("" : String).data ++ kv.1.data) (c = '\n'))
          (t.drop (("" : String).data ++ kv.1.data).length)) := by
    unfold scanId
    exact scan_step_alt1 _ _ _ _ _ _ _ _ hpre hm
  have hflag1 : lastIsNewline (("" : String).data ++ kv.1.data)
      (decide (c = '\n')) = false :=
    lastIsNewline_good _ _
      (by rw [show (("" : String).data ++ kv.1.data) = kv.1.data from rfl]
          exact hk1ne)
      (fun x hx => hk1chars x (by
        rw [show (("" : String).data ++ kv.1.data) = kv.1.data from rfl]
          at hx
        exact hx))
  have hdrop1 : t.drop (("" : String).data ++ kv.1.data).length = w := by
    rw [show (("" : String).data ++ kv.1.data) = kv.1.data from rfl, hw]
    exact List.drop_left _ _
  have hstep1 : scanId tbl ls (c :: t) =
      c :: (kv.2.data ++ scanId tbl false w) := by
    rw [hraw1, hflag1, hdrop1]
    rfl
  rw [hstep1]
  have hRla : lookaheadOk (scanId tbl false w) = true :=
    lookaheadOk_scanId_false tbl w hwla
  have hm2 : matchAt "" tbl (kv.2.data ++ scanId tbl false w) =
      some (kv.2, kv.2) :=
    matchAt_value_head tbl ⟨hgood, hnodup, hself⟩ kv.2 _ hvv hRla
  have hraw2 : scanId tbl ls (c :: (kv.2.data ++ scanId tbl false w)) =
      c :: (("" : String).data ++ ((fun x => x) (kv.2, kv.2).2).data ++
        scanId tbl
          (lastIsNewline (("" : String).data ++ (kv.2, kv.2).1.data)
            (c = '\n'))
          ((kv.2.data ++ scanId tbl false w).drop
            (("" : String).data ++ (kv.2, kv.2).1.data).length)) := by
    unfold scanId
    exact scan_step_alt1 _ _ _ _ _ _ _ _ hpre hm2
  have hflag2 : lastIsNewline
      (("" : String).data ++ (kv.2, kv.2).1.data)
      (decide (c = '\n')) = false :=
    lastIsNewline_good _ _
      (by rw [show (("" : String).data ++ (kv.2, kv.2).1.data) = kv.2.data
            from rfl]
          exact hvne)
      (fun x hx => hvchars x (by
        rw [show (("" : String).data ++ (kv.2, kv.2).1.data) = kv.2.data
          from rfl] at hx
        exact hx))
  have hdrop2 : (kv.2.data ++ scanId tbl false w).drop
      (("" : String).data ++ (kv.2, kv.2).1.data).length =
      scanId tbl false w := by
    rw [show (("" : String).data ++ (kv.2, kv.2).1.data) = kv.2.data
      from rfl]
    exact List.drop_left _ _
  have hwlen : w.length ≤ n := by
    have hlw := congrArg List.length hw
    simp only [List.length_append] at hlw
    omega
  rw [hraw2, hflag2, hdrop2, ih w false hwlen]
  rfl

theorem scanId_idem_alt2 (tbl : List (String × String))
    (htbl : goodTable tbl) (n : Nat) (c : Char) (t : List Char)
    (ih : ∀ s ls, s.length ≤ n →
      scanId tbl ls (scanId tbl ls s) = scanId tbl ls s)
    (htlen : t.length ≤ n)
    (hfirst : (if isPre c then matchAt "" tbl t else none) = none)
    (kv : String × String) (hm : matchAt "" tbl (c :: t) = some kv) :
    scanId tbl true (scanId tbl true (c :: t)) =
      scanId tbl true (c :: t) := by
  obtain ⟨hgood, hnodup, hself⟩ := htbl
  obtain ⟨hkvmem, w, hw, hwla⟩ := matchAt_some tbl (c :: t) kv hm
  obtain ⟨hk1ne, hk1chars⟩ := hgood kv hkvmem
  have hvv : (kv.2, kv.2) ∈ tbl := hself kv hkvmem
  have hk1len : 1 ≤ kv.1.data.length :=
    Nat.pos_of_ne_zero (fun h0 => hk1ne (List.length_eq_zero.mp h0))
  have hlen0 : (("" : String).data ++ kv.1.data).length ≠ 0 := by
    rw [show (("" : String).data ++ kv.1.data) = kv.1.data from rfl]
    omega
  have hraw1 : scanId tbl true (c :: t) =
      ("" : String).data ++ ((fun x => x) kv.2).data ++
        scanId tbl
          (lastIsNewline (("" : String).data ++ kv.1.data) (c = '\n'))
          ((c :: t).drop (("" : String).data ++ kv.1.data).length) := by
    unfold scanId
    exact scan_step_alt2 _ _ _ _ _ _ _ hfirst hm hlen0
  have hflag1 : lastIsNewline (("" : String).data ++ kv.1.data)
      (decide (c = '\n')) = false :=
    lastIsNewline_good _ _
      (by rw [show (("" : String).data ++ kv.1.data) = kv.1.data from rfl]
          exact hk1ne)
      (fun x hx => hk1chars x (by
        rw [show (("" : String).data ++ kv.1.data) = kv.1.data from rfl]
          at hx
        exact hx))
  have hdrop1 : (c :: t).drop
      (("" : String).data ++ kv.1.data).length = w := by
    rw [show (("" : String).data ++ kv.1.data) = kv.1.data from rfl, hw]
    exact List.drop_left _ _
  have hstep1 : scanId tbl true (c :: t) =
      kv.2.data ++ scanId tbl false w := by
    rw [hraw1, hflag1, hdrop1]
    rfl
  rw [hstep1]
  have hRla : lookaheadOk (scanId tbl false w) = true :=
    lookaheadOk_scanId_false tbl w hwla
  rw [scanId_value_head_true tbl ⟨hgood, hnodup, hself⟩ kv.2
    (scanId tbl false w) hvv hRla]
  have hwlen : w.length ≤ n := by
    have hlw := congrArg List.length hw
    simp only [List.length_cons, List.length_append] at hlw
    omega
  rw [ih w false hwlen]

theorem scanId_idempotent_aux (tbl : List (String × String))
    (htbl : goodTable tbl) :
    ∀ n (s : List Char) (ls : Bool), s.length ≤ n →
      scanId tbl ls (scanId tbl ls s) = scanId tbl ls s := by
  intro n
  induction n with
  | zero =>
    intro s ls hlen
    have hs : s = [] := List.length_eq_zero.mp (Nat.le_zero.mp hlen)
    subst hs
    rw [scanId_no_empty_match tbl htbl.1 ls,
      scanId_no_empty_match tbl htbl.1 ls]
  | succ n ih =>
    intro s ls hlen
    cases s with
    | nil =>
      rw [scanId_no_empty_match tbl htbl.1 ls,
        scanId_no_empty_match tbl htbl.1 ls]
    | cons c t =>
      have htlen : t.length ≤ n := by
        simp only [List.length_cons] at hlen
        omega
      by_cases hpre : isPre c = true
      · cases hm : matchAt "" tbl t with
        | some kv =>
            exact scanId_idem_alt1 tbl htbl n c t ls ih htlen hpre kv hm
        | none =>
          cases ls with
          | false =>
            exact scanId_idem_copy tbl htbl.1 n c t false ih htlen
              (fun _ => hm) (fun h => Bool.noConfusion h)
          | true =>
            cases hm2 : matchAt "" tbl (c :: t) with
            | none =>
              exact scanId_idem_copy tbl htbl.1 n c t true ih htlen
                (fun _ => hm) (fun _ => hm2)
            | some kv =>
              exact scanId_idem_alt2 tbl htbl n c t ih htlen
                (by rw [if_pos hpre]; exact hm) kv hm2
      · cases ls with
        | false =>
          exact scanId_idem_copy tbl htbl.1 n c t false ih htlen
            (fun h => absurd h hpre) (fun h => Bool.noConfusion h)
        | true =>
          cases hm2 : matchAt "" tbl (c :: t) with
          | none =>
            exact scanId_idem_copy tbl htbl.1 n c t true ih htlen
              (fun h => absurd h hpre) (fun _ => hm2)
          | some kv =>
            exact scanId_idem_alt2 tbl htbl n c t ih htlen
              (by rw [if_neg hpre]) kv hm2

/-- Two-column fixture whose property names chain into each other's
database names: property `p` has database name `q` while property `q` has
database name `r`, so the propertyName phase overwrites the
databaseName-to-itself entry for `q`. -/
def metaPQ : EntityMeta :=
  { columns := [{ propertyName := "p", propertyPath := "p",
                  databaseName := "q" },
                { propertyName := "q", propertyPath := "q",
                  databaseName := "r" }] }

/-- Prefix-disabled state over the chained fixture. -/
def stPQ : QBState :=
  { driver := drvFix
    aliasNamePrefixingEnabled := false
    aliases := [{ name := "u", metadata := some metaPQ }] }

/-- The replacement table the chained fixture builds: the value `q` of key
`p` is itself a key mapped to `r`, not to itself. -/
theorem buildReplacements_metaPQ :
    buildReplacements metaPQ = [("q", "r"), ("r", "r"), ("p", "q")] := rfl

/-- C1 counterexample: with two columns whose property/database names
chain (`p` stored as `q`, `q` stored as `r`), one pass over `" p "`
produces `" q "`, but a second pass rewrites that output again to
`" r "`: `replacePropertyNames` is not idempotent for every
entity-mapped alias. -/
theorem replacePropertyNames_not_idempotent :
    replacePropertyNames stPQ " p " = " q " ∧
    replacePropertyNames stPQ (replacePropertyNames stPQ " p ") = " r " ∧
    (" q " : String) ≠ " r " := by
  have hq : replacePropertyNames stPQ " p " = " q " := by
    have step0 : replacePropertyNames stPQ " p " =
        ⟨scan "" "" stPQ.escape [("q", "r"), ("r", "r"), ("p", "q")] true
          [' ', 'p', ' ']⟩ := rfl
    rw [step0]
    apply String.ext
    show scan "" "" stPQ.escape [("q", "r"), ("r", "r"), ("p", "q")] true
      [' ', 'p', ' '] = " q ".data
    rw [scan_step_alt1 _ _ _ _ _ _ _ ("p", "q") (by decide) (by decide)]
    rw [show (List.drop ("".data ++ (("p", "q") :
      String × String).1.data).length ['p', ' ']) = ([' '] : List Char)
      from rfl]
    rw [scan_step_copy _ _ _ _ _ _ _ (fun _ => by decide)
      (fun _ => by decide)]
    rw [scan_nil _ _ _ _ _ (fun _ => by decide)]
    decide
  refine ⟨hq, ?_, by decide⟩
  rw [hq]
  have step0 : replacePropertyNames stPQ " q " =
      ⟨scan "" "" stPQ.escape [("q", "r"), ("r", "r"), ("p", "q")] true
        [' ', 'q', ' ']⟩ := rfl
  rw [step0]
  apply String.ext
  show scan "" "" stPQ.escape [("q", "r"), ("r", "r"), ("p", "q")] true
    [' ', 'q', ' '] = " r ".data
  rw [scan_step_alt1 _ _ _ _ _ _ _ ("q", "r") (by decide) (by decide)]
  rw [show (List.drop ("".data ++ (("q", "r") :
    String × String).1.data).length ['q', ' ']) = ([' '] : List Char)
    from rfl]
  rw [scan_step_copy _ _ _ _ _ _ _ (fun _ => by decide)
    (fun _ => by decide)]
  rw [scan_nil _ _ _ _ _ (fun _ => by decide)]
  decide

/-- C1 amended: the substitution pass is idempotent for every statement
text whenever the alias's replacement table is closed under its own
values — every key is nonempty and boundary-free and every stored value
is itself a key mapped to itself (which holds exactly when the
propertyName/propertyPath phases do not overwrite another column's
databaseName-to-itself entry) — here for a single entity-mapped alias
with name prefixing disabled and escaping left inactive. -/
theorem replacePropertyNames_idempotent (st : QBState) (a : AliasRec)
    (m : EntityMeta) (s : String)
    (hal : st.aliases = [a]) (hmeta : a.metadata = some m)
    (hpfx : st.aliasNamePrefixingEnabled = false)
    (hesc : st.disableEscaping = false)
    (htbl : goodTable (buildReplacements m)) :
    replacePropertyNames st (replacePropertyNames st s) =
      replacePropertyNames st s := by
  have hmet : a.hasMetadata = true := by simp [AliasRec.hasMetadata, hmeta]
  have hm : a.meta = m := by simp [AliasRec.meta, hmeta]
  have hescid : st.escape = fun x => x := by
    funext nm
    unfold QBState.escape
    rw [hesc]
    rfl
  have step0 : replacePropertyNames st (replacePropertyNames st s) =
      ⟨replaceAliasPass st a (replaceAliasPass st a s.data)⟩ := by
    unfold replacePropertyNames
    rw [hal]
    rfl
  have step1 : replacePropertyNames st s =
      ⟨replaceAliasPass st a s.data⟩ := by
    unfold replacePropertyNames
    rw [hal]
    rfl
  by_cases hne : (buildReplacements m).length ≠ 0
  · have hpass : ∀ l : List Char, replaceAliasPass st a l =
        scanId (buildReplacements m) true l := by
      intro l
      unfold replaceAliasPass
      rw [hmet, hpfx, hm, hescid]
      simp only [Bool.not_true, Bool.false_eq_true, if_false]
      split
      · rfl
      · next h => exact absurd hne h
    rw [step0, step1, hpass, hpass]
    rw [scanId_idempotent_aux (buildReplacements m) htbl s.data.length
      s.data true le_rfl]
  · have hpass : ∀ l : List Char, replaceAliasPass st a l = l := by
      intro l
      unfold replaceAliasPass
      rw [hmet, hpfx, hm]
      simp only [Bool.not_true, Bool.false_eq_true, if_false]
      split
      · next h => exact absurd h hne
      · rfl
    rw [step0, step1, hpass, hpass]

/-- Single-alias, prefix-disabled, escaping-inactive state over the `id`
fixture, whose replacement table is closed under its own values. -/
def stIdem : QBState :=
  { driver := drvFix
    aliasNamePrefixingEnabled := false
    disableEscaping := false
    aliases := [{ name := "u", metadata := some metaId }] }

/-- Witness for the idempotence theorem at a concrete closed table. -/
theorem replacePropertyNames_idempotent_witness :
    replacePropertyNames stIdem (replacePropertyNames stIdem "a = id") =
      replacePropertyNames stIdem "a = id" :=
  replacePropertyNames_idempotent stIdem
    { name := "u", metadata := some metaId } metaId "a = id"
    rfl rfl rfl rfl
    (by unfold goodTable goodStr; decide)

/-- Decimal rendering of a single-digit index is one character long. -/
theorem toString_digit_length : ∀ n, n < 10 → (toString n).data.length = 1 :=
  by decide

/-- Decimal rendering is injective on single-digit indices. -/
theorem toString_digit_injective : ∀ a, a < 10 → ∀ b, b < 10 →
    toString a = toString b → a = b := by decide

/-- The structured compiler's native parameter name for one column of one
property of one record: context, outer, inner and key index separated by
underscores. -/
def pnKey (w p c : Nat) : String :=
  "where_" ++ toString w ++ "_" ++ toString p ++ "_" ++ toString c

/-- The identity compiler's native parameter name for one primary column
of one identity group. -/
def idKey (i j : Nat) : String :=
  "id_" ++ toString i ++ "_" ++ toString j

theorem pnKey_length (w p c : Nat) (hw : w < 10) (hp : p < 10)
    (hc : c < 10) : (pnKey w p c).data.length = 11 := by
  have hd : (pnKey w p c).data =
      "where_".data ++ (toString w).data ++ "_".data ++ (toString p).data ++
        "_".data ++ (toString c).data := rfl
  rw [hd]
  simp only [List.length_append]
  rw [toString_digit_length w hw, toString_digit_length p hp,
    toString_digit_length c hc]
  rfl

theorem idKey_length (i j : Nat) (hi : i < 10) (hj : j < 10) :
    (idKey i j).data.length = 6 := by
  have hd : (idKey i j).data =
      "id_".data ++ (toString i).data ++ "_".data ++ (toString j).data := rfl
  rw [hd]
  simp only [List.length_append]
  rw [toString_digit_length i hi, toString_digit_length j hj]
  rfl

theorem pnKey_inj (w p c w' p' c' : Nat) (hw : w < 10) (hp : p < 10)
    (hc : c < 10) (hw' : w' < 10) (hp' : p' < 10) (hc' : c' < 10)
    (h : pnKey w p c = pnKey w' p' c') : w = w' ∧ p = p' ∧ c = c' := by
  have hd : "where_".data ++ (toString w).data ++ "_".data ++
        (toString p).data ++ "_".data ++ (toString c).data =
      "where_".data ++ (toString w').data ++ "_".data ++
        (toString p').data ++ "_".data ++ (toString c').data :=
    congrArg String.data h
  have h1 := List.append_inj' hd
    (by rw [toString_digit_length c hc, toString_digit_length c' hc'])
  have h2 := List.append_inj' h1.1 rfl
  have h3 := List.append_inj' h2.1
    (by rw [toString_digit_length p hp, toString_digit_length p' hp'])
  have h4 := List.append_inj' h3.1 rfl
  have h5 := List.append_inj' h4.1
    (by rw [toString_digit_length w hw, toString_digit_length w' hw'])
  exact ⟨toString_digit_injective w hw w' hw' (String.ext h5.2),
    toString_digit_injective p hp p' hp' (String.ext h3.2),
    toString_digit_injective c hc c' hc' (String.ext h1.2)⟩

theorem idKey_inj (i j i' j' : Nat) (hi : i < 10) (hj : j < 10)
    (hi' : i' < 10) (hj' : j' < 10)
    (h : idKey i j = idKey i' j') : i = i' ∧ j = j' := by
  have hd : "id_".data ++ (toString i).data ++ "_".data ++
        (toString j).data =
      "id_".data ++ (toString i').data ++ "_".data ++
        (toString j').data :=
    congrArg String.data h
  have h1 := List.append_inj' hd
    (by rw [toString_digit_length j hj, toString_digit_length j' hj'])
  have h2 := List.append_inj' h1.1 rfl
  have h3 := List.append_inj' h2.1
    (by rw [toString_digit_length i hi, toString_digit_length i' hi'])
  exact ⟨toString_digit_injective i hi i' hi' (String.ext h3.2),
    toString_digit_injective j hj j' hj' (String.ext h1.2)⟩

theorem pnKey_startsWith_where (w p c : Nat) :
    "where_".data <+: (pnKey w p c).data := by
  have hd : (pnKey w p c).data =
      "where_".data ++ ((toString w).data ++ "_".data ++ (toString p).data ++
        "_".data ++ (toString c).data) := by
    simp [pnKey, List.append_assoc]
  rw [hd]
  exact List.prefix_append _ _

theorem idKey_startsWith_id (i j : Nat) :
    "id_".data <+: (idKey i j).data := by
  have hd : (idKey i j).data =
      "id_".data ++ ((toString i).data ++ "_".data ++ (toString j).data) := by
    simp [idKey, List.append_assoc]
  rw [hd]
  exact List.prefix_append _ _

/-- JavaScript assignment on a key absent from the map appends the new
entry. -/
theorem jsSet_fresh {β : Type} (m : List (String × β)) (k : String) (v : β)
    (h : ∀ q ∈ m, q.1 ≠ k) : jsSet m k v = m ++ [(k, v)] := by
  unfold jsSet
  rw [if_neg]
  intro hc
  simp only [List.any_eq_true, decide_eq_true_eq] at hc
  obtain ⟨q, hq, he⟩ := hc
  exact h q hq he

/-- Strict lexicographic order on (whereIndex, propertyIndex, columnIndex)
generation positions. -/
def tripleLt (t u : Nat × Nat × Nat) : Prop :=
  t.1 < u.1 ∨ (t.1 = u.1 ∧
    (t.2.1 < u.2.1 ∨ (t.2.1 = u.2.1 ∧ t.2.2 < u.2.2)))

theorem tripleLt_irrefl (t : Nat × Nat × Nat) : ¬ tripleLt t t := by
  unfold tripleLt
  omega

/-- A native key generated at position `t`: the plain key itself or the
key with an operator payload numeral appended (no separator). -/
def IsGen (t : Nat × Nat × Nat) (key : String) : Prop :=
  key = pnKey t.1 t.2.1 t.2.2 ∨
  ∃ d, d < 10 ∧ key = pnKey t.1 t.2.1 t.2.2 ++ toString d

/-- Invariant of the native store while the structured compiler stands at
generation position `pos`: keys are pairwise distinct and every key either
predates the pass (no `where_` prefix) or was generated at an earlier
single-digit position. -/
def StoreOk (pos : Nat × Nat × Nat) (native : List (String × Value)) :
    Prop :=
  (native.map Prod.fst).Nodup ∧
  ∀ key ∈ native.map Prod.fst,
    (List.isPrefixOf "where_".data key.data = false) ∨
    ∃ t, tripleLt t pos ∧ t.1 < 10 ∧ t.2.1 < 10 ∧ t.2.2 < 10 ∧ IsGen t key

theorem storeOk_mono (pos pos' : Nat × Nat × Nat)
    (hle : ∀ t, tripleLt t pos → tripleLt t pos')
    (native : List (String × Value)) (hok : StoreOk pos native) :
    StoreOk pos' native := by
  refine ⟨hok.1, fun key hkey => ?_⟩
  rcases hok.2 key hkey with hbase | ⟨t, hlt, h1, h2, h3, hg⟩
  · exact Or.inl hbase
  · exact Or.inr ⟨t, hle t hlt, h1, h2, h3, hg⟩

/-- A generated key that the current position's plain key starts is a key
of the same position. -/
theorem isGen_pn_same (w p c : Nat) (hw : w < 10) (hp : p < 10)
    (hc : c < 10) (t : Nat × Nat × Nat) (ht1 : t.1 < 10) (ht2 : t.2.1 < 10)
    (ht3 : t.2.2 < 10) (key : String) (hg : IsGen t key)
    (hpre : (pnKey w p c).data <+: key.data) : t = (w, p, c) := by
  have hpre2 : (pnKey t.1 t.2.1 t.2.2).data <+: key.data := by
    rcases hg with hg | ⟨d, hd, hg⟩
    · rw [hg]
    · rw [hg]
      exact ⟨(toString d).data, rfl⟩
  have hlen : (pnKey w p c).data.length =
      (pnKey t.1 t.2.1 t.2.2).data.length := by
    rw [pnKey_length w p c hw hp hc, pnKey_length _ _ _ ht1 ht2 ht3]
  have heq : (pnKey w p c).data = (pnKey t.1 t.2.1 t.2.2).data := by
    rcases List.prefix_or_prefix_of_prefix hpre hpre2 with h | h
    · exact h.sublist.eq_of_length hlen
    · exact (h.sublist.eq_of_length hlen.symm).symm
  obtain ⟨e1, e2, e3⟩ := pnKey_inj w p c t.1 t.2.1 t.2.2 hw hp hc
    ht1 ht2 ht3 (String.ext heq)
  obtain ⟨t1, t2, t3⟩ := t
  simp only [Prod.mk.injEq]
  exact ⟨e1.symm, e2.symm, e3.symm⟩

/-- At its own position the compiler finds no store key the plain key
starts: freshness of the plain name and emptiness of the payload base
count. -/
theorem storeOk_fresh (w p c : Nat) (hw : w < 10) (hp : p < 10)
    (hc : c < 10) (native : List (String × Value))
    (hok : StoreOk (w, p, c) native) :
    ∀ key ∈ native.map Prod.fst,
      List.isPrefixOf (pnKey w p c).data key.data = false := by
  intro key hkey
  by_contra hb
  have hb' : (pnKey w p c).data <+: key.data :=
    List.isPrefixOf_iff_prefix.mp (by
      cases hx : List.isPrefixOf (pnKey w p c).data key.data
      · exact absurd hx hb
      · rfl)
  rcases hok.2 key hkey with hbase | ⟨t, hlt, h1, h2, h3, hg⟩
  · have hwp : List.isPrefixOf "where_".data key.data = true :=
      List.isPrefixOf_iff_prefix.mpr
        ((pnKey_startsWith_where w p c).trans hb')
    rw [hwp] at hbase
    exact absurd hbase (by simp)
  · have := isGen_pn_same w p c hw hp hc t h1 h2 h3 key hg hb'
    rw [this] at hlt
    exact tripleLt_irrefl _ hlt

/-- Payload binding appends one fresh entry per payload value, named by the
base count plus the running payload position with no separator; under
single-digit bounds and the absence of earlier keys of the same column the
store only grows and its keys stay pairwise distinct. -/
theorem bindOperatorValues_spec (driver : Driver) (pname : String)
    (base : Nat) :
    ∀ (vs : List Value) (i : Nat) (native : List (String × Value))
      (pIdx : Nat),
      base + i + vs.length ≤ 10 →
      (native.map Prod.fst).Nodup →
      (∀ key ∈ native.map Prod.fst, pname.data <+: key.data →
        ∃ j, j < base + i ∧ key = pname ++ toString j) →
      ∃ ps added pIdx',
        bindOperatorValues driver pname base vs i native pIdx =
          (ps, native ++ added, pIdx') ∧
        added.map Prod.fst =
          (List.range' (base + i) vs.length).map
            (fun j => pname ++ toString j) ∧
        ((native ++ added).map Prod.fst).Nodup ∧
        (∀ key ∈ (native ++ added).map Prod.fst, pname.data <+: key.data →
          ∃ j, j < base + i + vs.length ∧ key = pname ++ toString j) := by
  intro vs
  induction vs with
  | nil =>
    intro i native pIdx hb hnd hinv
    refine ⟨[], [], pIdx, by rw [List.append_nil]; rfl, rfl,
      by rw [List.append_nil]; exact hnd, ?_⟩
    rw [List.append_nil]
    intro key hkey hpre
    obtain ⟨j, hj, hje⟩ := hinv key hkey hpre
    exact ⟨j, by omega, hje⟩
  | cons v vs ih =>
    intro i native pIdx hb hnd hinv
    have hfresh : ∀ q ∈ native, q.1 ≠ pname ++ toString (base + i) := by
      intro q hq he
      have hkey : q.1 ∈ native.map Prod.fst := List.mem_map_of_mem _ hq
      have hpre : pname.data <+: q.1.data := by
        rw [he]
        exact ⟨(toString (base + i)).data, rfl⟩
      obtain ⟨j, hj, hje⟩ := hinv q.1 hkey hpre
      have hts : toString j = toString (base + i) := by
        have hsame : pname ++ toString j = pname ++ toString (base + i) :=
          hje.symm.trans he
        have hdata : pname.data ++ (toString j).data =
            pname.data ++ (toString (base + i)).data :=
          congrArg String.data hsame
        exact String.ext (List.append_cancel_left hdata)
      have hj10 : j < 10 := by omega
      have hbi10 : base + i < 10 := by
        simp only [List.length_cons] at hb
        omega
      have := toString_digit_injective j hj10 (base + i) hbi10 hts
      omega
    have hjs : jsSet native (pname ++ toString (base + i)) v =
        native ++ [(pname ++ toString (base + i), v)] :=
      jsSet_fresh _ _ _ hfresh
    have hnd' : ((native ++ [(pname ++ toString (base + i), v)]).map
        Prod.fst).Nodup := by
      rw [List.map_append]
      refine List.Nodup.append hnd (by simp) ?_
      intro x hx hx2
      simp only [List.map_cons, List.map_nil, List.mem_singleton] at hx2
      subst hx2
      obtain ⟨q, hq, hqe⟩ := List.mem_map.mp hx
      exact hfresh q hq hqe
    have hinv' : ∀ key ∈ (native ++
        [(pname ++ toString (base + i), v)]).map Prod.fst,
        pname.data <+: key.data →
        ∃ j, j < base + (i + 1) ∧ key = pname ++ toString j := by
      intro key hkey hpre
      rw [List.map_append, List.mem_append] at hkey
      rcases hkey with hk | hk
      · obtain ⟨j, hj, hje⟩ := hinv key hk hpre
        exact ⟨j, by omega, hje⟩
      · simp only [List.map_cons, List.map_nil, List.mem_singleton] at hk
        exact ⟨base + i, by omega, hk⟩
    obtain ⟨ps, added, pIdx', hrec, hkeys, hnd'', hinv''⟩ :=
      ih (i + 1) (native ++ [(pname ++ toString (base + i), v)]) (pIdx + 1)
        (by simp only [List.length_cons] at hb; omega) hnd' hinv'
    refine ⟨driver.createParameter (pname ++ toString (base + i))
        ((pIdx + 1) - 1) :: ps,
      (pname ++ toString (base + i), v) :: added, pIdx', ?_, ?_, ?_, ?_⟩
    · have hstep : bindOperatorValues driver pname base (v :: vs) i native
          pIdx =
          (driver.createParameter (pname ++ toString (base + i))
              ((pIdx + 1) - 1) ::
            (bindOperatorValues driver pname base vs (i + 1)
              (jsSet native (pname ++ toString (base + i)) v)
              (pIdx + 1)).1,
           (bindOperatorValues driver pname base vs (i + 1)
              (jsSet native (pname ++ toString (base + i)) v)
              (pIdx + 1)).2.1,
           (bindOperatorValues driver pname base vs (i + 1)
              (jsSet native (pname ++ toString (base + i)) v)
              (pIdx + 1)).2.2) := rfl
      rw [hstep, hjs, hrec]
      simp [List.append_assoc]
    · rw [List.map_cons, hkeys]
      simp only [List.range'_succ, List.map_cons]
      rfl
    · have h := hnd''
      rw [List.append_assoc] at h
      exact h
    · intro key hkey hpre
      obtain ⟨j, hj, hje⟩ := hinv'' key (by
        show key ∈ ((native ++ [(pname ++ toString (base + i), v)]) ++
          added).map Prod.fst
        rw [List.append_assoc]
        exact hkey) hpre
      exact ⟨j, by simp only [List.length_cons]; omega, hje⟩

/-- Following the spec's name scheme: the native parameter names one
column list of one property generates, in generation order — nothing for a
null sentinel or a parameterless operator, the payload-indexed names for a
parameter-carrying operator, the plain key for any other value. -/
def columnGenNames (whereObj : List (String × Value)) (w p : Nat) :
    List Column → Nat → List String
  | [], _ => []
  | col :: cols, c =>
    (match col.getEntityValue whereObj true with
     | Value.nullV => []
     | Value.op o =>
       if o.useParameter then
         (List.range (if o.multipleParameters then o.payload.asList
           else [o.payload]).length).map
             (fun d => pnKey w p c ++ toString d)
       else []
     | _ => [pnKey w p c]) ++ columnGenNames whereObj w p cols (c + 1)

/-- Keys generated at the current position keep the store invariant for
the next column position. -/
theorem storeOk_append (w p c : Nat) (hw : w < 10) (hp : p < 10)
    (hc : c < 10) (native added : List (String × Value))
    (hok : StoreOk (w, p, c) native)
    (hnd : ((native ++ added).map Prod.fst).Nodup)
    (hgen : ∀ key ∈ added.map Prod.fst, IsGen (w, p, c) key) :
    StoreOk (w, p, c + 1) (native ++ added) := by
  refine ⟨hnd, fun key hkey => ?_⟩
  rw [List.map_append, List.mem_append] at hkey
  rcases hkey with hk | hk
  · rcases hok.2 key hk with hbase | ⟨t, hlt, h1, h2, h3, hg⟩
    · exact Or.inl hbase
    · refine Or.inr ⟨t, ?_, h1, h2, h3, hg⟩
      unfold tripleLt at *
      dsimp only at *
      omega
  · refine Or.inr ⟨(w, p, c), ?_, hw, hp, hc, hgen key hk⟩
    unfold tripleLt
    dsimp only
    omega

/-- Column step that leaves the store untouched (null sentinel or
parameterless operator). -/
theorem colSpec_skip (st : QBState) (aliasName : String)
    (whereObj : List (String × Value)) (propertyPath : String)
    (w p : Nat) (column : Column) (cols : List Column) (c : Nat)
    (native : List (String × Value)) (pIdx : Nat) (frag : String)
    (hb : c + (column :: cols).length ≤ 10)
    (hok : StoreOk (w, p, c) native)
    (hstep : compileColumnConditions st aliasName whereObj propertyPath w p
        (column :: cols) c native pIdx =
      (frag :: (compileColumnConditions st aliasName whereObj propertyPath
          w p cols (c + 1) native pIdx).1,
       (compileColumnConditions st aliasName whereObj propertyPath w p cols
          (c + 1) native pIdx).2.1,
       (compileColumnConditions st aliasName whereObj propertyPath w p cols
          (c + 1) native pIdx).2.2))
    (hghost : columnGenNames whereObj w p (column :: cols) c =
      columnGenNames whereObj w p cols (c + 1))
    (hpay : ∀ col ∈ cols, ∀ o, col.getEntityValue whereObj true =
      Value.op o → (if o.multipleParameters then o.payload.asList
        else [o.payload]).length ≤ 10)
    (ih : ∀ (c' : Nat) (native' : List (String × Value)) (pIdx' : Nat),
      c' + cols.length ≤ 10 →
      (∀ col ∈ cols, ∀ o, col.getEntityValue whereObj true = Value.op o →
        (if o.multipleParameters then o.payload.asList
          else [o.payload]).length ≤ 10) →
      StoreOk (w, p, c') native' →
      ∃ frags added pIdxR,
        compileColumnConditions st aliasName whereObj propertyPath w p cols
          c' native' pIdx' = (frags, native' ++ added, pIdxR) ∧
        added.map Prod.fst = columnGenNames whereObj w p cols c' ∧
        StoreOk (w, p, c' + cols.length) (native' ++ added)) :
    ∃ frags added pIdxR,
      compileColumnConditions st aliasName whereObj propertyPath w p
        (column :: cols) c native pIdx = (frags, native ++ added, pIdxR) ∧
      added.map Prod.fst = columnGenNames whereObj w p (column :: cols) c ∧
      StoreOk (w, p, c + (column :: cols).length) (native ++ added) := by
  have hok1 : StoreOk (w, p, c + 1) native :=
    storeOk_mono (w, p, c) (w, p, c + 1)
      (by intro t ht
          unfold tripleLt at *
          dsimp only at *
          omega)
      native hok
  obtain ⟨frags, added, pIdxR, hrec, hkeys, hok'⟩ :=
    ih (c + 1) native pIdx
      (by simp only [List.length_cons] at hb ⊢; omega) hpay hok1
  refine ⟨frag :: frags, added, pIdxR, ?_, ?_, ?_⟩
  · rw [hstep, hrec]
  · rw [hkeys, hghost]
  · have hlen : c + (column :: cols).length = (c + 1) + cols.length := by
      simp only [List.length_cons]
      omega
    rw [hlen]
    exact hok'

/-- Column step that binds one plain native parameter. -/
theorem colSpec_plain (st : QBState) (aliasName : String)
    (whereObj : List (String × Value)) (propertyPath : String)
    (w p : Nat) (hw : w < 10) (hp : p < 10)
    (column : Column) (cols : List Column) (c : Nat)
    (native : List (String × Value)) (pIdx : Nat) (v : Value)
    (hb : c + (column :: cols).length ≤ 10)
    (hok : StoreOk (w, p, c) native)
    (hstep : compileColumnConditions st aliasName whereObj propertyPath w p
        (column :: cols) c native pIdx =
      (((if st.aliasNamePrefixingEnabled then
            aliasName ++ "." ++ propertyPath
          else column.propertyPath) ++ " = " ++
          st.driver.createParameter (pnKey w p c) ((pIdx + 1) - 1)) ::
        (compileColumnConditions st aliasName whereObj propertyPath w p
          cols (c + 1) (jsSet native (pnKey w p c) v) (pIdx + 1)).1,
       (compileColumnConditions st aliasName whereObj propertyPath w p cols
          (c + 1) (jsSet native (pnKey w p c) v) (pIdx + 1)).2.1,
       (compileColumnConditions st aliasName whereObj propertyPath w p cols
          (c + 1) (jsSet native (pnKey w p c) v) (pIdx + 1)).2.2))
    (hghost : columnGenNames whereObj w p (column :: cols) c =
      pnKey w p c :: columnGenNames whereObj w p cols (c + 1))
    (hpay : ∀ col ∈ cols, ∀ o, col.getEntityValue whereObj true =
      Value.op o → (if o.multipleParameters then o.payload.asList
        else [o.payload]).length ≤ 10)
    (ih : ∀ (c' : Nat) (native' : List (String × Value)) (pIdx' : Nat),
      c' + cols.length ≤ 10 →
      (∀ col ∈ cols, ∀ o, col.getEntityValue whereObj true = Value.op o →
        (if o.multipleParameters then o.payload.asList
          else [o.payload]).length ≤ 10) →
      StoreOk (w, p, c') native' →
      ∃ frags added pIdxR,
        compileColumnConditions st aliasName whereObj propertyPath w p cols
          c' native' pIdx' = (frags, native' ++ added, pIdxR) ∧
        added.map Prod.fst = columnGenNames whereObj w p cols c' ∧
        StoreOk (w, p, c' + cols.length) (native' ++ added)) :
    ∃ frags added pIdxR,
      compileColumnConditions st aliasName whereObj propertyPath w p
        (column :: cols) c native pIdx = (frags, native ++ added, pIdxR) ∧
      added.map Prod.fst = columnGenNames whereObj w p (column :: cols) c ∧
      StoreOk (w, p, c + (column :: cols).length) (native ++ added) := by
  have hc10 : c < 10 := by
    simp only [List.length_cons] at hb
    omega
  have hfreshAll := storeOk_fresh w p c hw hp hc10 native hok
  have hfresh : ∀ q ∈ native, q.1 ≠ pnKey w p c := by
    intro q hq he
    have h1 := hfreshAll q.1 (List.mem_map_of_mem _ hq)
    rw [he] at h1
    have h2 : List.isPrefixOf (pnKey w p c).data (pnKey w p c).data =
        true := List.isPrefixOf_iff_prefix.mpr List.prefix_rfl
    rw [h2] at h1
    exact absurd h1 (by simp)
  have hjs : jsSet native (pnKey w p c) v =
      native ++ [(pnKey w p c, v)] := jsSet_fresh _ _ _ hfresh
  have hnd1 : ((native ++ [(pnKey w p c, v)]).map Prod.fst).Nodup := by
    rw [List.map_append]
    refine List.Nodup.append hok.1 (by simp) ?_
    intro x hx hx2
    simp only [List.map_cons, List.map_nil, List.mem_singleton] at hx2
    subst hx2
    obtain ⟨q, hq, hqe⟩ := List.mem_map.mp hx
    exact hfresh q hq hqe
  have hok1 : StoreOk (w, p, c + 1) (native ++ [(pnKey w p c, v)]) := by
    refine storeOk_append w p c hw hp hc10 native _ hok hnd1 ?_
    intro key hk
    simp only [List.map_cons, List.map_nil, List.mem_singleton] at hk
    subst hk
    exact Or.inl rfl
  obtain ⟨frags, added, pIdxR, hrec, hkeys, hok'⟩ :=
    ih (c + 1) (native ++ [(pnKey w p c, v)]) (pIdx + 1)
      (by simp only [List.length_cons] at hb ⊢; omega) hpay hok1
  refine ⟨((if st.aliasNamePrefixingEnabled then
        aliasName ++ "." ++ propertyPath
      else column.propertyPath) ++ " = " ++
      st.driver.createParameter (pnKey w p c) ((pIdx + 1) - 1)) :: frags,
    (pnKey w p c, v) :: added, pIdxR, ?_, ?_, ?_⟩
  · rw [hstep, hjs, hrec]
    simp [List.append_assoc]
  · rw [List.map_cons, hkeys, hghost]
  · have hlen : c + (column :: cols).length = (c + 1) + cols.length := by
      simp only [List.length_cons]
      omega
    rw [hlen]
    have h := hok'
    rw [List.append_assoc] at h
    exact h

/-- Column step that binds a parameter-carrying operator's payload. -/
theorem colSpec_opT (st : QBState) (aliasName : String)
    (whereObj : List (String × Value)) (propertyPath : String)
    (w p : Nat) (hw : w < 10) (hp : p < 10)
    (column : Column) (cols : List Column) (c : Nat)
    (native : List (String × Value)) (pIdx : Nat) (o : FindOp)
    (hb : c + (column :: cols).length ≤ 10)
    (hok : StoreOk (w, p, c) native)
    (hpaylen : (if o.multipleParameters then o.payload.asList
      else [o.payload]).length ≤ 10)
    (hstep : compileColumnConditions st aliasName whereObj propertyPath w p
        (column :: cols) c native pIdx =
      (computeFindOperatorExpression st.driver o
          (if st.aliasNamePrefixingEnabled then
            aliasName ++ "." ++ propertyPath
          else column.propertyPath)
          (bindOperatorValues st.driver (pnKey w p c)
            ((native.filter (fun q =>
              List.isPrefixOf (pnKey w p c).data q.1.data)).length)
            (if o.multipleParameters then o.payload.asList
              else [o.payload]) 0 native pIdx).1 ::
        (compileColumnConditions st aliasName whereObj propertyPath w p
          cols (c + 1)
          (bindOperatorValues st.driver (pnKey w p c)
            ((native.filter (fun q =>
              List.isPrefixOf (pnKey w p c).data q.1.data)).length)
            (if o.multipleParameters then o.payload.asList
              else [o.payload]) 0 native pIdx).2.1
          (bindOperatorValues st.driver (pnKey w p c)
            ((native.filter (fun q =>
              List.isPrefixOf (pnKey w p c).data q.1.data)).length)
            (if o.multipleParameters then o.payload.asList
              else [o.payload]) 0 native pIdx).2.2).1,
       (compileColumnConditions st aliasName whereObj propertyPath w p
          cols (c + 1)
          (bindOperatorValues st.driver (pnKey w p c)
            ((native.filter (fun q =>
              List.isPrefixOf (pnKey w p c).data q.1.data)).length)
            (if o.multipleParameters then o.payload.asList
              else [o.payload]) 0 native pIdx).2.1
          (bindOperatorValues st.driver (pnKey w p c)
            ((native.filter (fun q =>
              List.isPrefixOf (pnKey w p c).data q.1.data)).length)
            (if o.multipleParameters then o.payload.asList
              else [o.payload]) 0 native pIdx).2.2).2.1,
       (compileColumnConditions st aliasName whereObj propertyPath w p
          cols (c + 1)
          (bindOperatorValues st.driver (pnKey w p c)
            ((native.filter (fun q =>
              List.isPrefixOf (pnKey w p c).data q.1.data)).length)
            (if o.multipleParameters then o.payload.asList
              else [o.payload]) 0 native pIdx).2.1
          (bindOperatorValues st.driver (pnKey w p c)
            ((native.filter (fun q =>
              List.isPrefixOf (pnKey w p c).data q.1.data)).length)
            (if o.multipleParameters then o.payload.asList
              else [o.payload]) 0 native pIdx).2.2).2.2))
    (hghost : columnGenNames whereObj w p (column :: cols) c =
      (List.range (if o.multipleParameters then o.payload.asList
        else [o.payload]).length).map
          (fun d => pnKey w p c ++ toString d) ++
        columnGenNames whereObj w p cols (c + 1))
    (hpay : ∀ col ∈ cols, ∀ o, col.getEntityValue whereObj true =
      Value.op o → (if o.multipleParameters then o.payload.asList
        else [o.payload]).length ≤ 10)
    (ih : ∀ (c' : Nat) (native' : List (String × Value)) (pIdx' : Nat),
      c' + cols.length ≤ 10 →
      (∀ col ∈ cols, ∀ o, col.getEntityValue whereObj true = Value.op o →
        (if o.multipleParameters then o.payload.asList
          else [o.payload]).length ≤ 10) →
      StoreOk (w, p, c') native' →
      ∃ frags added pIdxR,
        compileColumnConditions st aliasName whereObj propertyPath w p cols
          c' native' pIdx' = (frags, native' ++ added, pIdxR) ∧
        added.map Prod.fst = columnGenNames whereObj w p cols c' ∧
        StoreOk (w, p, c' + cols.length) (native' ++ added)) :
    ∃ frags added pIdxR,
      compileColumnConditions st aliasName whereObj propertyPath w p
        (column :: cols) c native pIdx = (frags, native ++ added, pIdxR) ∧
      added.map Prod.fst = columnGenNames whereObj w p (column :: cols) c ∧
      StoreOk (w, p, c + (column :: cols).length) (native ++ added) := by
  have hc10 : c < 10 := by
    simp only [List.length_cons] at hb
    omega
  have hfreshAll := storeOk_fresh w p c hw hp hc10 native hok
  have hBC : (native.filter (fun q =>
      List.isPrefixOf (pnKey w p c).data q.1.data)).length = 0 := by
    rw [List.length_eq_zero, List.filter_eq_nil_iff]
    intro q hq
    have h1 := hfreshAll q.1 (List.mem_map_of_mem _ hq)
    simp [h1]
  rw [hBC] at hstep
  obtain ⟨ps, added1, pIdx1, hbind, hkeys1, hnd1, _⟩ :=
    bindOperatorValues_spec st.driver (pnKey w p c) 0
      (if o.multipleParameters then o.payload.asList else [o.payload]) 0
      native pIdx (by simpa using hpaylen) hok.1
      (fun key hk hpre => by
        have h1 := List.isPrefixOf_iff_prefix.mpr hpre
        rw [hfreshAll key hk] at h1
        exact absurd h1 (by simp))
  rw [hbind] at hstep
  dsimp only at hstep
  have hok1 : StoreOk (w, p, c + 1) (native ++ added1) := by
    refine storeOk_append w p c hw hp hc10 native _ hok hnd1 ?_
    intro key hk
    rw [hkeys1] at hk
    obtain ⟨j, hjmem, hje⟩ := List.mem_map.mp hk
    have hj : j < (if o.multipleParameters then o.payload.asList
        else [o.payload]).length := by
      rw [List.mem_range'] at hjmem
      obtain ⟨i, hi, hie⟩ := hjmem
      omega
    exact Or.inr ⟨j, by omega, hje.symm⟩
  obtain ⟨frags, added2, pIdxR, hrec, hkeys2, hok'⟩ :=
    ih (c + 1) (native ++ added1) pIdx1
      (by simp only [List.length_cons] at hb ⊢; omega) hpay hok1
  rw [hrec] at hstep
  dsimp only at hstep
  refine ⟨computeFindOperatorExpression st.driver o
      (if st.aliasNamePrefixingEnabled then
        aliasName ++ "." ++ propertyPath
      else column.propertyPath) ps :: frags,
    added1 ++ added2, pIdxR, ?_, ?_, ?_⟩
  · rw [hstep]
    simp [List.append_assoc]
  · rw [hghost, List.map_append, hkeys1, hkeys2, List.range_eq_range']
  · have hlen : c + (column :: cols).length = (c + 1) + cols.length := by
      simp only [List.length_cons]
      omega
    rw [hlen]
    have h := hok'
    rw [List.append_assoc] at h
    exact h

/-- The per-column compiler only appends to the native store, its appended
keys are exactly the scheme's generated names for the column list, and the
store invariant advances across the processed columns. -/
theorem compileColumnConditions_spec (st : QBState) (aliasName : String)
    (whereObj : List (String × Value)) (propertyPath : String)
    (w p : Nat) (hw : w < 10) (hp : p < 10) :
    ∀ (cols : List Column) (c : Nat) (native : List (String × Value))
      (pIdx : Nat),
      c + cols.length ≤ 10 →
      (∀ col ∈ cols, ∀ o, col.getEntityValue whereObj true = Value.op o →
        (if o.multipleParameters then o.payload.asList
          else [o.payload]).length ≤ 10) →
      StoreOk (w, p, c) native →
      ∃ frags added pIdxR,
        compileColumnConditions st aliasName whereObj propertyPath w p cols
          c native pIdx = (frags, native ++ added, pIdxR) ∧
        added.map Prod.fst = columnGenNames whereObj w p cols c ∧
        StoreOk (w, p, c + cols.length) (native ++ added) := by
  intro cols
  induction cols with
  | nil =>
    intro c native pIdx _ _ hok
    refine ⟨[], [], pIdx, ?_, rfl, by rw [List.append_nil]; exact hok⟩
    rw [List.append_nil]
    rfl
  | cons column cols ihh =>
    intro c native pIdx hb hpay hok
    have hpayTail : ∀ col ∈ cols, ∀ o,
        col.getEntityValue whereObj true = Value.op o →
        (if o.multipleParameters then o.payload.asList
          else [o.payload]).length ≤ 10 :=
      fun col h => hpay col (List.mem_cons_of_mem _ h)
    cases hv : column.getEntityValue whereObj true with
    | nullV =>
      refine colSpec_skip st aliasName whereObj propertyPath w p column
        cols c native pIdx
        ((if st.aliasNamePrefixingEnabled then
            aliasName ++ "." ++ propertyPath
          else column.propertyPath) ++ " IS NULL")
        hb hok ?_ ?_ hpayTail ihh
      · conv_lhs => unfold compileColumnConditions
        simp only [hv]
      · simp only [columnGenNames, hv, List.nil_append]
    | undef =>
      refine colSpec_plain st aliasName whereObj propertyPath w p hw hp
        column cols c native pIdx Value.undef hb hok ?_ ?_ hpayTail ihh
      · conv_lhs => unfold compileColumnConditions
        simp only [hv]
        rfl
      · simp only [columnGenNames, hv]
        rfl
    | nat n =>
      refine colSpec_plain st aliasName whereObj propertyPath w p hw hp
        column cols c native pIdx (Value.nat n) hb hok ?_ ?_ hpayTail ihh
      · conv_lhs => unfold compileColumnConditions
        simp only [hv]
        rfl
      · simp only [columnGenNames, hv]
        rfl
    | str s =>
      refine colSpec_plain st aliasName whereObj propertyPath w p hw hp
        column cols c native pIdx (Value.str s) hb hok ?_ ?_ hpayTail ihh
      · conv_lhs => unfold compileColumnConditions
        simp only [hv]
        rfl
      · simp only [columnGenNames, hv]
        rfl
    | arr elems =>
      refine colSpec_plain st aliasName whereObj propertyPath w p hw hp
        column cols c native pIdx (Value.arr elems) hb hok ?_ ?_
        hpayTail ihh
      · conv_lhs => unfold compileColumnConditions
        simp only [hv]
        rfl
      · simp only [columnGenNames, hv]
        rfl
    | func =>
      refine colSpec_plain st aliasName whereObj propertyPath w p hw hp
        column cols c native pIdx Value.func hb hok ?_ ?_ hpayTail ihh
      · conv_lhs => unfold compileColumnConditions
        simp only [hv]
        rfl
      · simp only [columnGenNames, hv]
        rfl
    | op o =>
      cases hu : o.useParameter with
      | false =>
        refine colSpec_skip st aliasName whereObj propertyPath w p column
          cols c native pIdx
          (computeFindOperatorExpression st.driver o
            (if st.aliasNamePrefixingEnabled then
              aliasName ++ "." ++ propertyPath
            else column.propertyPath) [])
          hb hok ?_ ?_ hpayTail ihh
        · conv_lhs => unfold compileColumnConditions
          simp only [hv, hu, Bool.false_eq_true, if_false]
        · simp only [columnGenNames, hv, hu, Bool.false_eq_true, if_false,
            List.nil_append]
      | true =>
        refine colSpec_opT st aliasName whereObj propertyPath w p hw hp
          column cols c native pIdx o hb hok
          (hpay column (List.mem_cons_self _ _) o hv) ?_ ?_ hpayTail ihh
        · conv_lhs => unfold compileColumnConditions
          simp only [hv, hu, eq_self_iff_true, if_true]
          rfl
        · simp only [columnGenNames, hv, hu, eq_self_iff_true, if_true]

/-- Following the spec's name scheme: names one record generates across
its property paths. -/
def propGenNames (m : EntityMeta) (whereObj : List (String × Value))
    (w : Nat) : List String → Nat → List String
  | [], _ => []
  | path :: paths, p =>
    columnGenNames whereObj w p (m.findColumnsWithPropertyPath path) 0 ++
      propGenNames m whereObj w paths (p + 1)

/-- The per-property compiler only appends to the native store and its
appended keys are exactly the generated names of the processed property
paths. -/
theorem compilePropertyConditions_spec (st : QBState) (m : EntityMeta)
    (aliasName : String) (whereObj : List (String × Value)) (w : Nat)
    (hw : w < 10) :
    ∀ (paths : List String) (p : Nat) (native : List (String × Value))
      (pIdx : Nat),
      p + paths.length ≤ 10 →
      (∀ path ∈ paths, (m.findColumnsWithPropertyPath path).length ≤ 10) →
      (∀ path ∈ paths, ∀ col ∈ m.findColumnsWithPropertyPath path, ∀ o,
        col.getEntityValue whereObj true = Value.op o →
        (if o.multipleParameters then o.payload.asList
          else [o.payload]).length ≤ 10) →
      StoreOk (w, p, 0) native →
      ∀ texts native' pIdxR,
        compilePropertyConditions st m aliasName whereObj w paths p native
          pIdx = .ok (texts, native', pIdxR) →
        ∃ added, native' = native ++ added ∧
          added.map Prod.fst = propGenNames m whereObj w paths p ∧
          StoreOk (w, p + paths.length, 0) (native ++ added) := by
  intro paths
  induction paths with
  | nil =>
    intro p native pIdx _ _ _ hok texts native' pIdxR heq
    unfold compilePropertyConditions at heq
    simp only [Except.ok.injEq, Prod.mk.injEq] at heq
    obtain ⟨-, h2, -⟩ := heq
    exact ⟨[], by rw [← h2, List.append_nil], rfl,
      by rw [List.append_nil]; exact hok⟩
  | cons path paths ih =>
    intro p native pIdx hb hclen hpay hok texts native' pIdxR heq
    have hp10 : p < 10 := by
      simp only [List.length_cons] at hb
      omega
    unfold compilePropertyConditions at heq
    by_cases h0 : (m.findColumnsWithPropertyPath path).length = 0
    · rw [if_pos h0] at heq
      exact absurd heq (by simp)
    · rw [if_neg h0] at heq
      obtain ⟨frags, added1, pIdx1, hcc, hkeys1, hok1⟩ :=
        compileColumnConditions_spec st aliasName whereObj path w p hw hp10
          (m.findColumnsWithPropertyPath path) 0 native pIdx
          (by have := hclen path (List.mem_cons_self _ _); omega)
          (fun col hc => hpay path (List.mem_cons_self _ _) col hc)
          hok
      rw [hcc] at heq
      dsimp only at heq
      cases hrec : compilePropertyConditions st m aliasName whereObj w
          paths (p + 1) (native ++ added1) pIdx1 with
      | error e =>
        rw [hrec] at heq
        exact absurd heq (by simp)
      | ok trip =>
        obtain ⟨texts2, native2, pIdx2⟩ := trip
        rw [hrec] at heq
        simp only [Except.ok.injEq, Prod.mk.injEq] at heq
        obtain ⟨-, h2, -⟩ := heq
        have hok1' : StoreOk (w, p + 1, 0) (native ++ added1) :=
          storeOk_mono (w, p, 0 +
              (m.findColumnsWithPropertyPath path).length) (w, p + 1, 0)
            (by intro t ht
                unfold tripleLt at *
                dsimp only at *
                omega)
            _ hok1
        obtain ⟨added2, hna, hkeys2, hok2⟩ :=
          ih (p + 1) (native ++ added1) pIdx1
            (by simp only [List.length_cons] at hb; omega)
            (fun q hq => hclen q (List.mem_cons_of_mem _ hq))
            (fun q hq => hpay q (List.mem_cons_of_mem _ hq))
            hok1' texts2 native2 pIdx2 hrec
        refine ⟨added1 ++ added2, ?_, ?_, ?_⟩
        · rw [← h2, hna, List.append_assoc]
        · rw [List.map_append, hkeys1, hkeys2]
          rfl
        · have hlen : p + (path :: paths).length =
              (p + 1) + paths.length := by
            simp only [List.length_cons]
            omega
          rw [hlen, ← List.append_assoc]
          exact hok2

/-- Following the spec's name scheme: every native parameter name one
structured-condition compilation pass generates, in generation order. -/
def whereGenNames (m : EntityMeta) :
    List (List (String × Value)) → Nat → List String
  | [], _ => []
  | whereObj :: rest, w =>
    propGenNames m whereObj w (createPropertyPath whereObj) 0 ++
      whereGenNames m rest (w + 1)

/-- The OR-branch compiler of the metadata branch only appends to the
native store and its appended keys are exactly the pass's generated
names. -/
theorem compileWhereObjectsMeta_spec (st : QBState) (m : EntityMeta)
    (aliasName : String) :
    ∀ (wheres : List (List (String × Value))) (w : Nat)
      (native : List (String × Value)) (pIdx : Nat),
      w + wheres.length ≤ 10 →
      (∀ wo ∈ wheres, (createPropertyPath wo).length ≤ 10) →
      (∀ wo ∈ wheres, ∀ path ∈ createPropertyPath wo,
        (m.findColumnsWithPropertyPath path).length ≤ 10) →
      (∀ wo ∈ wheres, ∀ path ∈ createPropertyPath wo,
        ∀ col ∈ m.findColumnsWithPropertyPath path, ∀ o,
        col.getEntityValue wo true = Value.op o →
        (if o.multipleParameters then o.payload.asList
          else [o.payload]).length ≤ 10) →
      StoreOk (w, 0, 0) native →
      ∀ texts native' pIdxR,
        compileWhereObjectsMeta st m aliasName wheres w native pIdx =
          .ok (texts, native', pIdxR) →
        ∃ added, native' = native ++ added ∧
          added.map Prod.fst = whereGenNames m wheres w ∧
          StoreOk (w + wheres.length, 0, 0) (native ++ added) := by
  intro wheres
  induction wheres with
  | nil =>
    intro w native pIdx _ _ _ _ hok texts native' pIdxR heq
    unfold compileWhereObjectsMeta at heq
    simp only [Except.ok.injEq, Prod.mk.injEq] at heq
    obtain ⟨-, h2, -⟩ := heq
    exact ⟨[], by rw [← h2, List.append_nil], rfl,
      by rw [List.append_nil]; exact hok⟩
  | cons whereObj rest ih =>
    intro w native pIdx hb hplen hclen hpay hok texts native' pIdxR heq
    have hw10 : w < 10 := by
      simp only [List.length_cons] at hb
      omega
    unfold compileWhereObjectsMeta at heq
    dsimp only at heq
    cases hprop : compilePropertyConditions st m aliasName whereObj w
        (createPropertyPath whereObj) 0 native pIdx with
    | error e =>
      rw [hprop] at heq
      exact absurd heq (by simp)
    | ok trip =>
      obtain ⟨texts1, native1, pIdx1⟩ := trip
      rw [hprop] at heq
      dsimp only at heq
      obtain ⟨added1, hna1, hkeys1, hok1⟩ :=
        compilePropertyConditions_spec st m aliasName whereObj w hw10
          (createPropertyPath whereObj) 0 native pIdx
          (by have := hplen whereObj (List.mem_cons_self _ _); omega)
          (fun path hp => hclen whereObj (List.mem_cons_self _ _) path hp)
          (fun path hp => hpay whereObj (List.mem_cons_self _ _) path hp)
          hok texts1 native1 pIdx1 hprop
      have hok1' : StoreOk (w + 1, 0, 0) (native ++ added1) :=
        storeOk_mono (w, 0 + (createPropertyPath whereObj).length, 0)
          (w + 1, 0, 0)
          (by intro t ht
              unfold tripleLt at *
              dsimp only at *
              omega)
          _ hok1
      cases hrest : compileWhereObjectsMeta st m aliasName rest (w + 1)
          native1 pIdx1 with
      | error e =>
        rw [hrest] at heq
        exact absurd heq (by simp)
      | ok trip2 =>
        obtain ⟨texts2, native2, pIdx2⟩ := trip2
        rw [hrest] at heq
        simp only [Except.ok.injEq, Prod.mk.injEq] at heq
        obtain ⟨-, h2, -⟩ := heq
        rw [hna1] at hrest
        obtain ⟨added2, hna2, hkeys2, hok2⟩ :=
          ih (w + 1) (native ++ added1) pIdx1
            (by simp only [List.length_cons] at hb; omega)
            (fun q hq => hplen q (List.mem_cons_of_mem _ hq))
            (fun q hq => hclen q (List.mem_cons_of_mem _ hq))
            (fun q hq => hpay q (List.mem_cons_of_mem _ hq))
            hok1' texts2 native2 pIdx2 hrest
        refine ⟨added1 ++ added2, ?_, ?_, ?_⟩
        · rw [← h2, hna2, List.append_assoc]
        · rw [List.map_append, hkeys1, hkeys2]
          rfl
        · have hlen : w + (whereObj :: rest).length =
              (w + 1) + rest.length := by
            simp only [List.length_cons]
            omega
          rw [hlen, ← List.append_assoc]
          exact hok2

/-- Structured-condition compilation against entity metadata only appends
fresh entries to the native store: the appended keys are exactly the
scheme's generated names and the resulting store keys stay pairwise
distinct. -/
theorem computeWhereObjects_names (st : QBState) (a : AliasRec)
    (m : EntityMeta) (wheres : List (List (String × Value)))
    (hma : st.mainAlias = some a) (hmeta : a.metadata = some m)
    (hwlen : wheres.length ≤ 10)
    (hplen : ∀ wo ∈ wheres, (createPropertyPath wo).length ≤ 10)
    (hclen : ∀ wo ∈ wheres, ∀ path ∈ createPropertyPath wo,
      (m.findColumnsWithPropertyPath path).length ≤ 10)
    (hpay : ∀ wo ∈ wheres, ∀ path ∈ createPropertyPath wo,
      ∀ col ∈ m.findColumnsWithPropertyPath path, ∀ o,
      col.getEntityValue wo true = Value.op o →
      (if o.multipleParameters then o.payload.asList
        else [o.payload]).length ≤ 10)
    (hclean : ∀ key ∈ st.nativeParameters.map Prod.fst,
      List.isPrefixOf "where_".data key.data = false)
    (hnd : (st.nativeParameters.map Prod.fst).Nodup) :
    ∀ text st', computeWhereParameter st (.objs wheres) = .ok (text, st') →
      ∃ added, st'.nativeParameters = st.nativeParameters ++ added ∧
        added.map Prod.fst = whereGenNames m wheres 0 ∧
        ((st.nativeParameters ++ added).map Prod.fst).Nodup := by
  intro text st' heq
  have hmet : a.hasMetadata = true := by
    simp [AliasRec.hasMetadata, hmeta]
  have hm : a.meta = m := by simp [AliasRec.meta, hmeta]
  have heq2 : computeWhereObjects st wheres = .ok (text, st') := heq
  unfold computeWhereObjects at heq2
  rw [hma] at heq2
  dsimp only at heq2
  simp only [hmet, if_true, hm] at heq2
  cases hcw : compileWhereObjectsMeta st m a.name wheres 0
      st.nativeParameters st.nativeParameters.length with
  | error e =>
    rw [hcw] at heq2
    exact absurd heq2 (by simp)
  | ok trip =>
    obtain ⟨texts1, native1, pIdx1⟩ := trip
    rw [hcw] at heq2
    dsimp only at heq2
    simp only [Except.ok.injEq, Prod.mk.injEq] at heq2
    obtain ⟨-, hst'⟩ := heq2
    have hok0 : StoreOk (0, 0, 0) st.nativeParameters := by
      refine ⟨hnd, fun key hk => Or.inl (hclean key hk)⟩
    obtain ⟨added, hna, hkeys, hok'⟩ :=
      compileWhereObjectsMeta_spec st m a.name wheres 0
        st.nativeParameters st.nativeParameters.length
        (by omega) hplen hclen hpay hok0 texts1 native1 pIdx1 hcw
    refine ⟨added, ?_, hkeys, hok'.1⟩
    rw [← hst', ← hna]

/-- Invariant of the native store while the identity compiler's general
path stands at group `pos.1`, fragment `pos.2`: keys are pairwise distinct
and every key either predates the pass (no `id_` prefix) or is an earlier
single-digit identity key. -/
def IdStoreOk (pos : Nat × Nat) (native : List (String × Value)) : Prop :=
  (native.map Prod.fst).Nodup ∧
  ∀ key ∈ native.map Prod.fst,
    (List.isPrefixOf "id_".data key.data = false) ∨
    ∃ t : Nat × Nat, (t.1 < pos.1 ∨ (t.1 = pos.1 ∧ t.2 < pos.2)) ∧
      t.1 < 10 ∧ t.2 < 10 ∧ key = idKey t.1 t.2

theorem idStoreOk_mono (pos pos' : Nat × Nat)
    (h : ∀ t : Nat × Nat, (t.1 < pos.1 ∨ (t.1 = pos.1 ∧ t.2 < pos.2)) →
      (t.1 < pos'.1 ∨ (t.1 = pos'.1 ∧ t.2 < pos'.2)))
    (native : List (String × Value)) (hok : IdStoreOk pos native) :
    IdStoreOk pos' native := by
  refine ⟨hok.1, fun key hk => ?_⟩
  rcases hok.2 key hk with hbase | ⟨t, hlt, h1, h2, hg⟩
  · exact Or.inl hbase
  · exact Or.inr ⟨t, h t hlt, h1, h2, hg⟩

theorem idStoreOk_fresh (i j : Nat) (hi : i < 10) (hj : j < 10)
    (native : List (String × Value)) (hok : IdStoreOk (i, j) native) :
    idKey i j ∉ native.map Prod.fst := by
  intro hk
  rcases hok.2 _ hk with hbase | ⟨t, hlt, h1, h2, hg⟩
  · have h3 : List.isPrefixOf "id_".data (idKey i j).data = true :=
      List.isPrefixOf_iff_prefix.mpr (idKey_startsWith_id i j)
    rw [h3] at hbase
    exact absurd hbase (by simp)
  · obtain ⟨e1, e2⟩ := idKey_inj i j t.1 t.2 hi hj h1 h2 hg
    dsimp only at hlt
    omega

theorem idStoreOk_snoc (i j : Nat) (hi : i < 10) (hj : j < 10)
    (native : List (String × Value)) (hok : IdStoreOk (i, j) native)
    (v : Value) (hfresh : idKey i j ∉ native.map Prod.fst) :
    IdStoreOk (i, j + 1) (native ++ [(idKey i j, v)]) := by
  constructor
  · rw [List.map_append]
    refine List.Nodup.append hok.1 (by simp) ?_
    intro x hx hx2
    simp only [List.map_cons, List.map_nil, List.mem_singleton] at hx2
    subst hx2
    exact hfresh hx
  · intro key hk
    rw [List.map_append, List.mem_append] at hk
    rcases hk with hk | hk
    · rcases hok.2 key hk with hbase | ⟨t, hlt, h1, h2, hg⟩
      · exact Or.inl hbase
      · refine Or.inr ⟨t, ?_, h1, h2, hg⟩
        dsimp only at hlt ⊢
        omega
    · simp only [List.map_cons, List.map_nil, List.mem_singleton] at hk
      subst hk
      refine Or.inr ⟨(i, j), ?_, hi, hj, rfl⟩
      dsimp only
      omega

/-- The per-column fold of one identity group appends exactly one fresh
`id_<group>_<fragment>` entry per primary column. -/
theorem idWhereColumnStep_foldl_spec (st : QBState) (aliasText : String)
    (index : Nat) (id : List (String × Value)) (hidx : index < 10) :
    ∀ (pcols : List Column) (subs : List String)
      (native : List (String × Value)) (pIdx : Nat),
      subs.length + pcols.length ≤ 10 →
      IdStoreOk (index, subs.length) native →
      ∃ subs2 added pIdxR,
        pcols.foldl (idWhereColumnStep st aliasText index id)
          (subs, native, pIdx) = (subs ++ subs2, native ++ added, pIdxR) ∧
        added.map Prod.fst =
          (List.range' subs.length pcols.length).map
            (fun j => idKey index j) ∧
        IdStoreOk (index, subs.length + pcols.length) (native ++ added) := by
  intro pcols
  induction pcols with
  | nil =>
    intro subs native pIdx _ hok
    exact ⟨[], [], pIdx, by simp, rfl,
      by rw [List.append_nil]; exact hok⟩
  | cons pc pcols ih =>
    intro subs native pIdx hb hok
    have hj10 : subs.length < 10 := by
      simp only [List.length_cons] at hb
      omega
    have hfresh := idStoreOk_fresh index subs.length hidx hj10 native hok
    have hfresh' : ∀ q ∈ native, q.1 ≠ idKey index subs.length := by
      intro q hq he
      exact hfresh (he ▸ List.mem_map_of_mem _ hq)
    have hjs : jsSet native (idKey index subs.length)
        (pc.getEntityValue id true) =
        native ++ [(idKey index subs.length,
          pc.getEntityValue id true)] :=
      jsSet_fresh _ _ _ hfresh'
    have hstep : (pc :: pcols).foldl
        (idWhereColumnStep st aliasText index id) (subs, native, pIdx) =
        pcols.foldl (idWhereColumnStep st aliasText index id)
          (subs ++ [aliasText ++ st.escape pc.databaseName ++ " = " ++
            st.driver.createParameter (idKey index subs.length) pIdx],
           jsSet native (idKey index subs.length)
             (pc.getEntityValue id true), pIdx + 1) := rfl
    have hok1 : IdStoreOk (index, subs.length + 1)
        (native ++ [(idKey index subs.length,
          pc.getEntityValue id true)]) :=
      idStoreOk_snoc index subs.length hidx hj10 native hok _ hfresh
    obtain ⟨subs2, added2, pIdxR, hrec, hkeys, hok'⟩ :=
      ih (subs ++ [aliasText ++ st.escape pc.databaseName ++ " = " ++
          st.driver.createParameter (idKey index subs.length) pIdx])
        (native ++ [(idKey index subs.length,
          pc.getEntityValue id true)]) (pIdx + 1)
        (by simp only [List.length_append, List.length_cons,
              List.length_nil] at hb ⊢
            omega)
        (by have hlen : (subs ++ [aliasText ++ st.escape pc.databaseName ++
              " = " ++ st.driver.createParameter
                (idKey index subs.length) pIdx]).length =
              subs.length + 1 := by simp
            rw [hlen]
            exact hok1)
    refine ⟨(aliasText ++ st.escape pc.databaseName ++ " = " ++
        st.driver.createParameter (idKey index subs.length) pIdx) :: subs2,
      (idKey index subs.length, pc.getEntityValue id true) :: added2,
      pIdxR, ?_, ?_, ?_⟩
    · rw [hstep, hjs, hrec]
      simp [List.append_assoc]
    · rw [List.map_cons, hkeys]
      have hlen : (subs ++ [aliasText ++ st.escape pc.databaseName ++
          " = " ++ st.driver.createParameter
            (idKey index subs.length) pIdx]).length =
          subs.length + 1 := by simp
      rw [hlen]
      simp only [List.length_cons, List.range'_succ, List.map_cons]
    · have hlen2 : subs.length + (pc :: pcols).length =
          (subs.length + 1) + pcols.length := by
        simp only [List.length_cons]
        omega
      rw [hlen2]
      have h := hok'
      rw [List.append_assoc] at h
      have hlen : (subs ++ [aliasText ++ st.escape pc.databaseName ++
          " = " ++ st.driver.createParameter
            (idKey index subs.length) pIdx]).length =
          subs.length + 1 := by simp
      rw [hlen] at h
      exact h

/-- Following the spec's name scheme: the identity compiler's generated
names for `n` identity groups starting at group `start`, `k` primary
columns each. -/
def idGenNamesFrom (start n k : Nat) : List String :=
  ((List.range' start n).map
    (fun i => (List.range k).map (fun j => idKey i j))).flatten

/-- The per-identity fold of the identity compiler's general path appends
exactly the scheme's generated names, keeping store keys pairwise
distinct. -/
theorem idWhereIdStep_foldl_spec (st : QBState) (aliasText : String)
    (metadata : EntityMeta) (hk : metadata.primaryColumns.length ≤ 10) :
    ∀ (idsL : List (List (String × Value))) (strs : List String)
      (native : List (String × Value)) (pIdx : Nat),
      strs.length + idsL.length ≤ 10 →
      IdStoreOk (strs.length, 0) native →
      ∃ strs2 added pIdxR,
        idsL.foldl (idWhereIdStep st aliasText metadata)
          (strs, native, pIdx) = (strs ++ strs2, native ++ added, pIdxR) ∧
        added.map Prod.fst =
          idGenNamesFrom strs.length idsL.length
            metadata.primaryColumns.length ∧
        IdStoreOk (strs.length + idsL.length, 0) (native ++ added) := by
  intro idsL
  induction idsL with
  | nil =>
    intro strs native pIdx _ hok
    exact ⟨[], [], pIdx, by simp, rfl,
      by rw [List.append_nil]; exact hok⟩
  | cons id idsL ih =>
    intro strs native pIdx hb hok
    have hidx : strs.length < 10 := by
      simp only [List.length_cons] at hb
      omega
    obtain ⟨subs2, added1, pIdx1, hinner, hkeys1, hok1⟩ :=
      idWhereColumnStep_foldl_spec st aliasText strs.length id hidx
        metadata.primaryColumns [] native pIdx (by simpa using hk) hok
    have hstep : (id :: idsL).foldl (idWhereIdStep st aliasText metadata)
        (strs, native, pIdx) =
        idsL.foldl (idWhereIdStep st aliasText metadata)
          (strs ++ [joinSep " AND "
              (metadata.primaryColumns.foldl
                (idWhereColumnStep st aliasText strs.length id)
                ([], native, pIdx)).1],
           (metadata.primaryColumns.foldl
              (idWhereColumnStep st aliasText strs.length id)
              ([], native, pIdx)).2.1,
           (metadata.primaryColumns.foldl
              (idWhereColumnStep st aliasText strs.length id)
              ([], native, pIdx)).2.2) := rfl
    rw [hinner] at hstep
    dsimp only at hstep
    have hok1' : IdStoreOk (strs.length + 1, 0) (native ++ added1) := by
      refine idStoreOk_mono (strs.length,
        ([] : List String).length + metadata.primaryColumns.length)
        (strs.length + 1, 0) ?_ _ hok1
      intro t ht
      dsimp only at ht ⊢
      omega
    obtain ⟨strs2, added2, pIdxR, hrec, hkeys2, hok'⟩ :=
      ih (strs ++ [joinSep " AND " ([] ++ subs2)]) (native ++ added1)
        pIdx1
        (by simp only [List.length_append, List.length_cons,
              List.length_nil] at hb ⊢
            omega)
        (by have hlen : (strs ++ [joinSep " AND " ([] ++ subs2)]).length =
              strs.length + 1 := by simp
            rw [hlen]
            exact hok1')
    refine ⟨joinSep " AND " ([] ++ subs2) :: strs2, added1 ++ added2,
      pIdxR, ?_, ?_, ?_⟩
    · rw [hstep, hrec]
      simp [List.append_assoc]
    · rw [List.map_append, hkeys1, hkeys2]
      have hlen : (strs ++ [joinSep " AND " ([] ++ subs2)]).length =
          strs.length + 1 := by simp
      rw [hlen]
      simp only [idGenNamesFrom, List.length_cons, List.range'_succ,
        List.map_cons]
      simp only [List.length_nil, List.range_eq_range', List.flatten_cons]
    · have hlen2 : strs.length + (id :: idsL).length =
          (strs.length + 1) + idsL.length := by
        simp only [List.length_cons]
        omega
      rw [hlen2]
      have h := hok'
      rw [List.append_assoc] at h
      have hlen : (strs ++ [joinSep " AND " ([] ++ subs2)]).length =
          strs.length + 1 := by simp
      rw [hlen] at h
      exact h

/-- The identity compiler's general path appends exactly the scheme's
`id_<group>_<fragment>` names to the native store, pairwise distinct. -/
theorem createWhereIdsExpression_names (st : QBState) (a : AliasRec)
    (ids : List Value)
    (hma : st.mainAlias = some a)
    (hmpk : a.meta.hasMultiplePrimaryKeys = true)
    (hlen : ids.length ≤ 10)
    (hpk : a.meta.primaryColumns.length ≤ 10)
    (hclean : ∀ key ∈ st.nativeParameters.map Prod.fst,
      List.isPrefixOf "id_".data key.data = false)
    (hnd : (st.nativeParameters.map Prod.fst).Nodup) :
    ∃ text added,
      createWhereIdsExpression st (Value.arr ids) =
        .ok (text, { st with nativeParameters :=
          st.nativeParameters ++ added }) ∧
      added.map Prod.fst =
        idGenNamesFrom 0 ids.length a.meta.primaryColumns.length ∧
      ((st.nativeParameters ++ added).map Prod.fst).Nodup := by
  obtain ⟨strs2, added, pIdxR, hfold, hkeys, hok'⟩ :=
    idWhereIdStep_foldl_spec st
      (if st.aliasNamePrefixingEnabled then st.escape a.name ++ "."
        else "")
      a.meta hpk (ids.map a.meta.ensureEntityIdMap) []
      st.nativeParameters st.nativeParameters.length
      (by simp only [List.length_map, List.length_nil]; omega)
      ⟨hnd, fun key hk => Or.inl (hclean key hk)⟩
  refine ⟨(if (([] ++ strs2 : List String)).length > 1 then
      "(" ++ joinSep " OR "
        (([] ++ strs2 : List String).map (fun w => "(" ++ w ++ ")")) ++ ")"
    else ([] ++ strs2 : List String).headD ""), added, ?_, ?_, hok'.1⟩
  · unfold createWhereIdsExpression
    rw [hma]
    dsimp only
    simp only [hmpk, Bool.not_true, Bool.false_eq_true, false_and,
      if_false]
    rw [hfold]
  · rw [hkeys]
    simp only [List.length_map, List.length_nil]

/-- Eleven columns sharing the property path `a`; the column at index 1
extracts an operator value, every other column a plain scalar. -/
def colC7 (k : Nat) : Column :=
  { propertyName := "a", propertyPath := "a", databaseName := "a"
    getValue := fun _ _ =>
      if k = 1 then Value.op (FindOp.moreThan (Value.nat 3))
      else Value.nat k }

/-- Metadata of the eleven-column fixture. -/
def metaC7 : EntityMeta :=
  { columns := (List.range 11).map colC7 }

/-- State over the eleven-column fixture, prefixing disabled. -/
def stC7 : QBState :=
  { driver := drvFix
    aliasNamePrefixingEnabled := false
    mainAlias := some { name := "u", metadata := some metaC7 } }

set_option maxRecDepth 4096 in
/-- C7 counterexample: with eleven columns on one property path, the
operator payload bound at column index 1 is stored as `where_0_0_1`
with the payload numeral `0` appended WITHOUT a separating underscore,
producing `where_0_0_10`; the plain binding of column index 10 later
generates the very same name and overwrites the operator's entry.  The
rendered text carries the placeholder `:where_0_0_10` in two different
predicates, eleven names are generated but only ten entries remain, and
the shared entry holds the plain value 10 rather than the operator
payload 3. -/
theorem computeWhereParameter_name_collision :
    (computeWhereParameter stC7 (.objs [[("a", Value.nat 0)]])).toOption.map
        (fun r => r.2.nativeParameters.map Prod.fst) =
      some ["where_0_0_0", "where_0_0_10", "where_0_0_2", "where_0_0_3",
        "where_0_0_4", "where_0_0_5", "where_0_0_6", "where_0_0_7",
        "where_0_0_8", "where_0_0_9"] ∧
    (computeWhereParameter stC7 (.objs [[("a", Value.nat 0)]])).toOption.map
        Prod.fst =
      some ("a = :where_0_0_0 AND a > :where_0_0_10 AND a = :where_0_0_2" ++
        " AND a = :where_0_0_3 AND a = :where_0_0_4 AND a = :where_0_0_5" ++
        " AND a = :where_0_0_6 AND a = :where_0_0_7 AND a = :where_0_0_8" ++
        " AND a = :where_0_0_9 AND a = :where_0_0_10") ∧
    (computeWhereParameter stC7 (.objs [[("a", Value.nat 0)]])).toOption.map
        (fun r => jsGet r.2.nativeParameters "where_0_0_10") =
      some (some (Value.nat 10)) :=
  ⟨by decide, rfl, rfl⟩

/-- C7 amended: within one pass over single-digit index ranges (at most
ten records, ten property paths per record, ten columns per path, ten
payload values per operator, ten identities and ten primary columns) and
over a store whose keys are pairwise distinct and carry neither the
`where_` nor the `id_` name prefix, both compilers only append: the
structured-condition compiler appends exactly the scheme's
`where_<record>_<property>_<column>` names — an operator payload
appending its numeral directly, without a separating underscore — and
the identity compiler's general path appends exactly the
`id_<group>_<fragment>` names; in both cases the resulting store keys
are pairwise distinct, so no generated name overwrites an existing
entry.  Without the single-digit bound the missing separator makes the
schemes collide (see the counterexample). -/
theorem generated_parameter_names_fresh (st : QBState) (a : AliasRec)
    (m : EntityMeta) (wheres : List (List (String × Value)))
    (ids : List Value)
    (hma : st.mainAlias = some a) (hmeta : a.metadata = some m)
    (hwlen : wheres.length ≤ 10)
    (hplen : ∀ wo ∈ wheres, (createPropertyPath wo).length ≤ 10)
    (hclen : ∀ wo ∈ wheres, ∀ path ∈ createPropertyPath wo,
      (m.findColumnsWithPropertyPath path).length ≤ 10)
    (hpay : ∀ wo ∈ wheres, ∀ path ∈ createPropertyPath wo,
      ∀ col ∈ m.findColumnsWithPropertyPath path, ∀ o,
      col.getEntityValue wo true = Value.op o →
      (if o.multipleParameters then o.payload.asList
        else [o.payload]).length ≤ 10)
    (hilen : ids.length ≤ 10) (hpk : m.primaryColumns.length ≤ 10)
    (hcleanW : ∀ key ∈ st.nativeParameters.map Prod.fst,
      List.isPrefixOf "where_".data key.data = false)
    (hcleanI : ∀ key ∈ st.nativeParameters.map Prod.fst,
      List.isPrefixOf "id_".data key.data = false)
    (hnd : (st.nativeParameters.map Prod.fst).Nodup) :
    (∀ text st', computeWhereParameter st (.objs wheres) =
        .ok (text, st') →
      ∃ added, st'.nativeParameters = st.nativeParameters ++ added ∧
        added.map Prod.fst = whereGenNames m wheres 0 ∧
        ((st.nativeParameters ++ added).map Prod.fst).Nodup) ∧
    (m.hasMultiplePrimaryKeys = true →
      ∃ text added, createWhereIdsExpression st (Value.arr ids) =
        .ok (text, { st with nativeParameters :=
          st.nativeParameters ++ added }) ∧
        added.map Prod.fst =
          idGenNamesFrom 0 ids.length m.primaryColumns.length ∧
        ((st.nativeParameters ++ added).map Prod.fst).Nodup) := by
  refine ⟨computeWhereObjects_names st a m wheres hma hmeta hwlen hplen
    hclen hpay hcleanW hnd, fun hmpk => ?_⟩
  have hm : a.meta = m := by simp [AliasRec.meta, hmeta]
  have h := createWhereIdsExpression_names st a ids hma
    (by rw [hm]; exact hmpk) hilen (by rw [hm]; exact hpk) hcleanI hnd
  rw [hm] at h
  exact h

/-- Witness column: plain scalar on property path `a`. -/
def colW : Column :=
  { propertyName := "a", propertyPath := "a", databaseName := "a"
    getValue := fun _ _ => Value.nat 5 }

/-- First primary column of the composite-key witness entity. -/
def pkA : Column :=
  { propertyName := "x", propertyPath := "x", databaseName := "x"
    getValue := fun _ _ => Value.nat 1 }

/-- Second primary column of the composite-key witness entity. -/
def pkB : Column :=
  { propertyName := "y", propertyPath := "y", databaseName := "y"
    getValue := fun _ _ => Value.nat 2 }

/-- Composite-key witness metadata: one condition column, two primary
columns. -/
def metaW : EntityMeta :=
  { columns := [colW]
    primaryColumns := [pkA, pkB]
    hasMultiplePrimaryKeys := true
    ensureEntityIdMap := fun v => [("id", v)] }

/-- State over the composite-key witness entity, prefixing disabled. -/
def stW : QBState :=
  { driver := drvFix
    aliasNamePrefixingEnabled := false
    mainAlias := some { name := "u", metadata := some metaW } }

/-- Witness for the freshness theorem: one record and one identity over
the composite-key entity append exactly their generated names. -/
theorem generated_parameter_names_fresh_witness :
    (∃ added,
      ({ stW with nativeParameters :=
        [("where_0_0_0", Value.nat 5)] } : QBState).nativeParameters =
        stW.nativeParameters ++ added ∧
      added.map Prod.fst =
        whereGenNames metaW [[("a", Value.nat 5)]] 0 ∧
      ((stW.nativeParameters ++ added).map Prod.fst).Nodup) ∧
    (∃ text added,
      createWhereIdsExpression stW (Value.arr [Value.nat 7]) =
        .ok (text, { stW with nativeParameters :=
          stW.nativeParameters ++ added }) ∧
      added.map Prod.fst =
        idGenNamesFrom 0 ([Value.nat 7] : List Value).length
          metaW.primaryColumns.length ∧
      ((stW.nativeParameters ++ added).map Prod.fst).Nodup) := by
  have h := generated_parameter_names_fresh stW
    { name := "u", metadata := some metaW } metaW
    [[("a", Value.nat 5)]] [Value.nat 7] rfl rfl (by decide) (by decide)
    (by decide)
    (by intro wo hwo path hpath col hcol o ho
        simp only [List.mem_singleton] at hwo
        subst hwo
        simp only [createPropertyPath, List.map_cons, List.map_nil,
          List.mem_singleton] at hpath
        subst hpath
        have hcols : metaW.findColumnsWithPropertyPath "a" = [colW] := rfl
        rw [hcols] at hcol
        simp only [List.mem_singleton] at hcol
        subst hcol
        simp [Column.getEntityValue, colW] at ho)
    (by decide) (by decide) (by decide) (by decide) (by decide)
  exact ⟨h.1 "a = :where_0_0_0"
    { stW with nativeParameters := [("where_0_0_0", Value.nat 5)] } rfl,
    h.2 rfl⟩
